import Mathlib

namespace QG

/-!
Verification of the response-parsing and validation layer of the
question-generation service (`src/utils.py`,
`src/services/document_processor.py`).

Python strings are modelled as `List Char`.  Python's `re.split(r'Question
\d+:', text)` is modelled by `reSplitQ`, `str.strip()` by `pstrip`,
`str.split('\n')` / `str.split('.')` by `splitOnChar`, `str.split(':')[1]`
by `colonTail1`, `str.split(':', 1)[1]` by `afterFirstColon`,
`str.lower()` by `plower` (ASCII letters, as produced by the LLM prompt
contract), and `str.startswith` by `List.isPrefixOf`.  Raising
`HTTPException` is modelled by returning `Except.error` with the HTTP
status code.
-/

/-- Python whitespace for `str.strip()` (ASCII whitespace characters). -/
def isSpaceChar (c : Char) : Bool :=
  c == ' ' || c == '\t' || c == '\n' || c == '\r' || c == '\x0b' || c == '\x0c'

/-- `str.lstrip()` on a character list. -/
def lstrip (l : List Char) : List Char := l.dropWhile isSpaceChar

/-- `str.rstrip()` on a character list. -/
def rstrip (l : List Char) : List Char := (l.reverse.dropWhile isSpaceChar).reverse

/-- `str.strip()` on a character list. -/
def pstrip (l : List Char) : List Char := rstrip (lstrip l)

/-- `str.lower()` on one ASCII character. -/
def lowerChar : Char → Char
  | 'A' => 'a' | 'B' => 'b' | 'C' => 'c' | 'D' => 'd' | 'E' => 'e' | 'F' => 'f'
  | 'G' => 'g' | 'H' => 'h' | 'I' => 'i' | 'J' => 'j' | 'K' => 'k' | 'L' => 'l'
  | 'M' => 'm' | 'N' => 'n' | 'O' => 'o' | 'P' => 'p' | 'Q' => 'q' | 'R' => 'r'
  | 'S' => 's' | 'T' => 't' | 'U' => 'u' | 'V' => 'v' | 'W' => 'w' | 'X' => 'x'
  | 'Y' => 'y' | 'Z' => 'z'
  | c => c

/-- `str.lower()` on a character list. -/
def plower (l : List Char) : List Char := l.map lowerChar

/-- Python `str.split(sep)` for a one-character separator: `''.split` of an
empty string yields `[""]`, and every separator occurrence produces a cut. -/
def splitOnChar (sep : Char) : List Char → List (List Char)
  | [] => [[]]
  | c :: cs =>
    if c = sep then [] :: splitOnChar sep cs
    else
      match splitOnChar sep cs with
      | [] => [[c]]
      | p :: ps => (c :: p) :: ps

/-- Python `line.split(':', 1)[1]`: everything after the first colon
(meaningful only when a colon exists, which the parsers guard). -/
def afterFirstColon : List Char → List Char
  | [] => []
  | c :: cs => if c = ':' then cs else afterFirstColon cs

/-- Python `line.split(':')[1]`: the piece between the first and the second
colon (or up to the end when there is exactly one colon). -/
def colonTail1 (l : List Char) : List Char :=
  match splitOnChar ':' l with
  | _ :: x :: _ => x
  | _ => []

/-- The literal part of the marker pattern `Question \d+:`. -/
def qStr : List Char := ['Q', 'u', 'e', 's', 't', 'i', 'o', 'n', ' ']

/-- Match of the regex `Question \d+:` at the head of the list: returns the
remainder after the matched marker. -/
def qMarkerRest (cs : List Char) : Option (List Char) :=
  if qStr.isPrefixOf cs then
    if (cs.drop 9).takeWhile Char.isDigit = [] then none
    else
      match (cs.drop 9).dropWhile Char.isDigit with
      | [] => none
      | e :: r => if e = ':' then some r else none
  else none

/-- Leftmost match of `Question \d+:` anywhere in the list: text before the
match and text after it. -/
def splitFirst : List Char → Option (List Char × List Char)
  | [] => none
  | c :: cs =>
    match qMarkerRest (c :: cs) with
    | some rest => some ([], rest)
    | none => (splitFirst cs).map (fun p => (c :: p.1, p.2))

/-- Fuel-driven worker for `reSplitQ` (fuel keeps the recursion structural,
so that the kernel can evaluate it). -/
def reSplitQAux : Nat → List Char → List (List Char)
  | 0, cs => [cs]
  | n + 1, cs =>
    match splitFirst cs with
    | none => [cs]
    | some (p, r) => p :: reSplitQAux n r

/-- Python `re.split(r'Question \d+:', text)`. -/
def reSplitQ (cs : List Char) : List (List Char) := reSplitQAux (cs.length + 1) cs

/-! ### `parse_mcqs` (src/utils.py lines 199-245) -/

/-- One parsed MCQ: `{"question": ..., "options": {A,B,C,D}, "correct_answer": ...}`. -/
structure MCQRecord where
  question : List Char
  optA : List Char
  optB : List Char
  optC : List Char
  optD : List Char
  correct_answer : List Char
deriving DecidableEq, Repr

/-- The mutable loop state of `parse_mcqs`: the `options` dict (a key is
present iff the field is `some`) and `correct_answer` (`none` models
Python's `None`). -/
structure MCQState where
  optA : Option (List Char)
  optB : Option (List Char)
  optC : Option (List Char)
  optD : Option (List Char)
  correct : Option (List Char)
deriving DecidableEq, Repr

def caLabel : List Char := "Correct Answer:".toList

/-- One iteration of the `for line in lines[1:]` loop of `parse_mcqs`. -/
def mcqLine (st : MCQState) (l : List Char) : MCQState :=
  let line := pstrip l
  if ['A', ')'].isPrefixOf line then { st with optA := some (pstrip (line.drop 2)) }
  else if ['B', ')'].isPrefixOf line then { st with optB := some (pstrip (line.drop 2)) }
  else if ['C', ')'].isPrefixOf line then { st with optC := some (pstrip (line.drop 2)) }
  else if ['D', ')'].isPrefixOf line then { st with optD := some (pstrip (line.drop 2)) }
  else if caLabel.isPrefixOf line then { st with correct := some (pstrip (colonTail1 line)) }
  else st

/-- The body of the `for q in questions[1:]` loop of `parse_mcqs`:
one candidate segment to an optional record. -/
def parseMCQSegment (seg : List Char) : Option MCQRecord :=
  let lines := splitOnChar '\n' (pstrip seg)
  if lines.length < 5 then none
  else
    let question := pstrip (lines.headD [])
    let st := (lines.drop 1).foldl mcqLine ⟨none, none, none, none, none⟩
    match st.optA, st.optB, st.optC, st.optD, st.correct with
    | some a, some b, some c, some d, some ans =>
      if question ≠ [] ∧ ans ≠ [] then some ⟨question, a, b, c, d, ans⟩ else none
    | _, _, _, _, _ => none

/-- `parse_mcqs` from src/utils.py. -/
def parse_mcqs (text : List Char) : List MCQRecord :=
  ((reSplitQ text).drop 1).filterMap parseMCQSegment

/-! ### `parse_questions` (src/utils.py lines 248-283) -/

structure QARecord where
  question : List Char
  answer : List Char
deriving DecidableEq, Repr

def ansLabel : List Char := "answer:".toList

/-- The `for i, line in enumerate(lines[1:], 1)` loop of `parse_questions`:
first line whose stripped lower-case form starts with `answer:` wins, and
the *original* line is split at its first colon. -/
def qaFindAnswer : List (List Char) → Option (List Char)
  | [] => none
  | l :: ls =>
    if ansLabel.isPrefixOf (plower (pstrip l)) then some (pstrip (afterFirstColon l))
    else qaFindAnswer ls

def parseQASegment (seg : List Char) : Option QARecord :=
  let lines := splitOnChar '\n' (pstrip seg)
  if lines.length < 2 then none
  else
    let question := pstrip (lines.headD [])
    match qaFindAnswer (lines.drop 1) with
    | some a => if question ≠ [] ∧ a ≠ [] then some ⟨question, a⟩ else none
    | none => none

/-- `parse_questions` from src/utils.py. -/
def parse_questions (text : List Char) : List QARecord :=
  ((reSplitQ text).drop 1).filterMap parseQASegment

/-! ### `parse_fill_in_the_blanks` (src/utils.py lines 286-332) -/

structure FIBRecord where
  question : List Char
  blank_answer : List Char
  context : Option (List Char)
deriving DecidableEq, Repr

structure FIBState where
  q : Option (List Char)
  ba : Option (List Char)
  ctx : Option (List Char)
deriving DecidableEq, Repr

def baLabel : List Char := "blank answer:".toList
def ctxLabel : List Char := "context:".toList

/-- One iteration of the `for line in lines` loop of
`parse_fill_in_the_blanks`. -/
def fibLine (st : FIBState) (l : List Char) : FIBState :=
  let ls := pstrip l
  if ls = [] then st
  else if st.q = none then { st with q := some ls }
  else if baLabel.isPrefixOf (plower ls) then
    { st with ba := some (pstrip (afterFirstColon ls)) }
  else if ctxLabel.isPrefixOf (plower ls) then
    { st with ctx := some (pstrip (afterFirstColon ls)) }
  else st

def parseFIBSegment (seg : List Char) : Option FIBRecord :=
  let lines := splitOnChar '\n' (pstrip seg)
  if lines.length < 2 then none
  else
    let st := lines.foldl fibLine ⟨none, none, none⟩
    match st.q, st.ba with
    | some q, some ba => if q ≠ [] ∧ ba ≠ [] then some ⟨q, ba, st.ctx⟩ else none
    | _, _ => none

/-- `parse_fill_in_the_blanks` from src/utils.py. -/
def parse_fill_in_the_blanks (text : List Char) : List FIBRecord :=
  ((reSplitQ text).drop 1).filterMap parseFIBSegment

/-! ### Validators (src/utils.py lines 139-174) -/

/-- `"." + filename.split('.')[-1].lower()`. -/
def fileExtOf (filename : List Char) : List Char :=
  '.' :: plower ((splitOnChar '.' filename).getLastD [])

/-- `validate_file`: `Except.error 400` models raising
`HTTPException(status_code=400, ...)`. -/
def validate_file (filename : List Char) (allowed_types : List (List Char)) :
    Except Nat Unit :=
  if fileExtOf filename ∈ allowed_types then Except.ok () else Except.error 400

/-- `validate_num_questions`. -/
def validate_num_questions (num_questions min_val max_val : Int) : Except Nat Unit :=
  if num_questions < min_val ∨ num_questions > max_val then Except.error 400
  else Except.ok ()

/-! ### DocumentProcessor (src/services/document_processor.py) -/

def MAX_DOCUMENT_LENGTH : Nat := 3000

/-- `DocumentProcessor.truncate_for_llm`: `text[:max_length]`, with the
config default when `max_length is None`. -/
def truncate_for_llm (text : List Char) (max_length : Option Nat) : List Char :=
  text.take (max_length.getD MAX_DOCUMENT_LENGTH)

/-- `DocumentProcessor.get_document_preview`. -/
def get_document_preview (text : List Char) (preview_length : Nat) : List Char :=
  if preview_length < text.length then text.take preview_length ++ ['.', '.', '.']
  else text

/-! ### Rendering completions: lines joined by newlines after a marker -/

/-- Join a list of lines with `'\n'` separators. -/
def joinLines : List (List Char) → List Char
  | [] => []
  | [l] => l
  | l :: l' :: ls => l ++ '\n' :: joinLines (l' :: ls)

/-! ### Well-formed MCQ blocks and their rendered text -/

/-- An option line `A) ...` .. `D) ...`. -/
def optLine (L : Char) (x : List Char) : List Char := L :: ')' :: ' ' :: x

/-- A `Correct Answer: ...` line. -/
def caLine (x : List Char) : List Char := caLabel ++ ' ' :: x

/-- The lines of a well-formed MCQ block body (after the marker). -/
def mcqLines (q a b c d ans : List Char) : List (List Char) :=
  [q, optLine 'A' a, optLine 'B' b, optLine 'C' c, optLine 'D' d, caLine ans]

/-- The rendered body of a well-formed MCQ block: newline after the marker,
then question, four options and the answer line. -/
def mcqBody (q a b c d ans : List Char) : List Char :=
  '\n' :: joinLines (mcqLines q a b c d ans)

/-- Side conditions making a field string "plain": already stripped, on one
line, and containing no `Question <digits>:` marker. -/
def plainStr (x : List Char) : Prop :=
  pstrip x = x ∧ '\n' ∉ x ∧ splitFirst x = none

/-! ### Lists of interleaved well-formed and malformed blocks -/

/-- A candidate block of an MCQ completion: either well formed (marker
digits, question, four option texts, answer), or malformed with an
arbitrary body. -/
inductive MCQBlock where
  | good (ds q a b c d ans : List Char) : MCQBlock
  | bad (ds body : List Char) : MCQBlock
deriving DecidableEq, Repr

def blockDigits : MCQBlock → List Char
  | .good ds _ _ _ _ _ _ => ds
  | .bad ds _ => ds

def blockBody : MCQBlock → List Char
  | .good _ q a b c d ans => mcqBody q a b c d ans
  | .bad _ body => body

/-- The rendered text of one block: the marker `Question <ds>:` followed by
the block body. -/
def renderBlock (blk : MCQBlock) : List Char :=
  qStr ++ blockDigits blk ++ ':' :: blockBody blk

def renderBlocks : List MCQBlock → List Char
  | [] => []
  | blk :: blks => renderBlock blk ++ renderBlocks blks

instance : DecidablePred plainStr := fun x =>
  inferInstanceAs (Decidable (pstrip x = x ∧ '\n' ∉ x ∧ splitFirst x = none))

/-- Well-formedness of a block list entry.  A `good` block has digit marker
text and plain fields with a non-empty question and non-empty, colon-free
answer; a `bad` (malformed) block has digit marker text, no internal
marker, and a body rejected by the segment parser. -/
def blockWF : MCQBlock → Prop
  | .good ds q a b c d ans =>
    ds ≠ [] ∧ (∀ ch ∈ ds, ch.isDigit = true) ∧
    plainStr q ∧ q ≠ [] ∧ plainStr a ∧ plainStr b ∧ plainStr c ∧ plainStr d ∧
    plainStr ans ∧ ans ≠ [] ∧ ':' ∉ ans
  | .bad ds body =>
    ds ≠ [] ∧ (∀ ch ∈ ds, ch.isDigit = true) ∧ splitFirst body = none ∧
    parseMCQSegment body = none

instance : DecidablePred blockWF := fun blk =>
  match blk with
  | .good ds q a b c d ans =>
    inferInstanceAs (Decidable (ds ≠ [] ∧ (∀ ch ∈ ds, ch.isDigit = true) ∧
      plainStr q ∧ q ≠ [] ∧ plainStr a ∧ plainStr b ∧ plainStr c ∧ plainStr d ∧
      plainStr ans ∧ ans ≠ [] ∧ ':' ∉ ans))
  | .bad ds body =>
    inferInstanceAs (Decidable (ds ≠ [] ∧ (∀ ch ∈ ds, ch.isDigit = true) ∧
      splitFirst body = none ∧ parseMCQSegment body = none))

/-- The record a block should produce: `some` for well-formed blocks,
`none` for malformed ones. -/
def blockRecord : MCQBlock → Option MCQRecord
  | .good _ q a b c d ans => some ⟨q, a, b, c, d, ans⟩
  | .bad _ _ => none

/-! ### Additional definitions for the remaining claims -/

/-- The state of the option/answer loop of `parse_mcqs` on one segment
(the `options` dict and `correct_answer` after the `for line in lines[1:]`
loop). -/
def mcqSegState (seg : List Char) : MCQState :=
  ((splitOnChar '\n' (pstrip seg)).drop 1).foldl mcqLine ⟨none, none, none, none, none⟩

/-- Render a single block: marker followed by a body. -/
def renderOne (ds body : List Char) : List Char := qStr ++ ds ++ ':' :: body

/-- A `Blank Answer: ...` line. -/
def baLine (a : List Char) : List Char := "Blank Answer: ".toList ++ a

/-- A `Context: ...` line. -/
def ctxLine (c : List Char) : List Char := "Context: ".toList ++ c

/-- A lower-case `blank answer: ...` line. -/
def lcBaLine (a : List Char) : List Char := "blank answer: ".toList ++ a

/-- A lower-case `context: ...` line. -/
def lcCtxLine (c : List Char) : List Char := "context: ".toList ++ c

/-- A lower-case `answer: ...` line. -/
def qaAnsLine (a : List Char) : List Char := "answer: ".toList ++ a

/-- A lower-case `correct answer: ...` line. -/
def lcCaLine (x : List Char) : List Char := "correct answer: ".toList ++ x

/-- A two-line segment body (newline after the marker, then two lines). -/
def twoLineBody (l1 l2 : List Char) : List Char := '\n' :: joinLines [l1, l2]

/-- A three-line segment body. -/
def threeLineBody (l1 l2 l3 : List Char) : List Char := '\n' :: joinLines [l1, l2, l3]

/-- An MCQ body whose answer line uses the lower-case label
`correct answer:`. -/
def mcqBodyLCAns (q a b c d ans : List Char) : List Char :=
  '\n' :: joinLines [q, optLine 'A' a, optLine 'B' b, optLine 'C' c, optLine 'D' d,
    lcCaLine ans]

/-- An MCQ body whose first option line uses the lower-case prefix `a)`. -/
def mcqBodyLCOpt (q a b c d ans : List Char) : List Char :=
  '\n' :: joinLines [q, optLine 'a' a, optLine 'B' b, optLine 'C' c, optLine 'D' d,
    caLine ans]

/-- An MCQ body with only three of the four option lines. -/
def threeOptBody (q a b c ans : List Char) : List Char :=
  '\n' :: joinLines [q, optLine 'A' a, optLine 'B' b, optLine 'C' c, caLine ans]

/-- The extension extractor as the spec describes it: the substring after
the *last* dot (the whole name when there is no dot), lower-cased, with a
dot prefixed.  Modelled from the spec: "extracts the substring after the
last `.`, lower-cases it, prefixes a dot". -/
def specFileExt (filename : List Char) : List Char :=
  '.' :: plower ((filename.reverse.takeWhile (fun x => x != '.')).reverse)

/-! ### Exception-modelling (`Except`) variants of the three parsers.

Python's `line.split(':')[1]` raises `IndexError` when `line` has no colon,
and `line.split(':', 1)[1]` likewise.  The `E` variants below model those
indexing operations as fallible; everything else is identical to the plain
definitions.  `parse_mcqsE` etc. therefore return `Except.error` exactly
when the Python functions would raise. -/

def colonTail1E (l : List Char) : Except Unit (List Char) :=
  match splitOnChar ':' l with
  | _ :: x :: _ => Except.ok x
  | _ => Except.error ()

def afterFirstColonE : List Char → Except Unit (List Char)
  | [] => Except.error ()
  | c :: cs => if c = ':' then Except.ok cs else afterFirstColonE cs

def mcqLineE (st : MCQState) (l : List Char) : Except Unit MCQState :=
  let line := pstrip l
  if ['A', ')'].isPrefixOf line then
    Except.ok { st with optA := some (pstrip (line.drop 2)) }
  else if ['B', ')'].isPrefixOf line then
    Except.ok { st with optB := some (pstrip (line.drop 2)) }
  else if ['C', ')'].isPrefixOf line then
    Except.ok { st with optC := some (pstrip (line.drop 2)) }
  else if ['D', ')'].isPrefixOf line then
    Except.ok { st with optD := some (pstrip (line.drop 2)) }
  else if caLabel.isPrefixOf line then do
    let v ← colonTail1E line
    Except.ok { st with correct := some (pstrip v) }
  else Except.ok st

def parseMCQSegmentE (seg : List Char) : Except Unit (Option MCQRecord) :=
  let lines := splitOnChar '\n' (pstrip seg)
  if lines.length < 5 then Except.ok none
  else do
    let st ← (lines.drop 1).foldlM mcqLineE ⟨none, none, none, none, none⟩
    match st.optA, st.optB, st.optC, st.optD, st.correct with
    | some a, some b, some c, some d, some ans =>
      if pstrip (lines.headD []) ≠ [] ∧ ans ≠ [] then
        Except.ok (some ⟨pstrip (lines.headD []), a, b, c, d, ans⟩)
      else Except.ok none
    | _, _, _, _, _ => Except.ok none

def parse_mcqsE (text : List Char) : Except Unit (List MCQRecord) :=
  ((reSplitQ text).drop 1).foldlM
    (fun acc seg => do
      let r ← parseMCQSegmentE seg
      match r with
      | some rcd => Except.ok (acc ++ [rcd])
      | none => Except.ok acc) []

def qaFindAnswerE : List (List Char) → Except Unit (Option (List Char))
  | [] => Except.ok none
  | l :: ls =>
    if ansLabel.isPrefixOf (plower (pstrip l)) then do
      let v ← afterFirstColonE l
      Except.ok (some (pstrip v))
    else qaFindAnswerE ls

def parseQASegmentE (seg : List Char) : Except Unit (Option QARecord) :=
  let lines := splitOnChar '\n' (pstrip seg)
  if lines.length < 2 then Except.ok none
  else do
    let a? ← qaFindAnswerE (lines.drop 1)
    match a? with
    | some a =>
      if pstrip (lines.headD []) ≠ [] ∧ a ≠ [] then
        Except.ok (some ⟨pstrip (lines.headD []), a⟩)
      else Except.ok none
    | none => Except.ok none

def parse_questionsE (text : List Char) : Except Unit (List QARecord) :=
  ((reSplitQ text).drop 1).foldlM
    (fun acc seg => do
      let r ← parseQASegmentE seg
      match r with
      | some rcd => Except.ok (acc ++ [rcd])
      | none => Except.ok acc) []

def fibLineE (st : FIBState) (l : List Char) : Except Unit FIBState :=
  let ls := pstrip l
  if ls = [] then Except.ok st
  else if st.q = none then Except.ok { st with q := some ls }
  else if baLabel.isPrefixOf (plower ls) then do
    let v ← afterFirstColonE ls
    Except.ok { st with ba := some (pstrip v) }
  else if ctxLabel.isPrefixOf (plower ls) then do
    let v ← afterFirstColonE ls
    Except.ok { st with ctx := some (pstrip v) }
  else Except.ok st

def parseFIBSegmentE (seg : List Char) : Except Unit (Option FIBRecord) :=
  let lines := splitOnChar '\n' (pstrip seg)
  if lines.length < 2 then Except.ok none
  else do
    let st ← lines.foldlM fibLineE ⟨none, none, none⟩
    match st.q, st.ba with
    | some q, some ba =>
      if q ≠ [] ∧ ba ≠ [] then Except.ok (some ⟨q, ba, st.ctx⟩) else Except.ok none
    | _, _ => Except.ok none

def parse_fill_in_the_blanksE (text : List Char) : Except Unit (List FIBRecord) :=
  ((reSplitQ text).drop 1).foldlM
    (fun acc seg => do
      let r ← parseFIBSegmentE seg
      match r with
      | some rcd => Except.ok (acc ++ [rcd])
      | none => Except.ok acc) []

/-! ### Lemmas about `splitOnChar` -/

theorem splitOnChar_ne_nil (sep : Char) (l : List Char) : splitOnChar sep l ≠ [] := by
  induction l with
  | nil => simp [splitOnChar]
  | cons c cs ih =>
    simp only [splitOnChar]
    split
    · simp
    · cases h : splitOnChar sep cs <;> simp

theorem splitOnChar_of_not_mem {sep : Char} {l : List Char} (h : sep ∉ l) :
    splitOnChar sep l = [l] := by
  induction l with
  | nil => rfl
  | cons c cs ih =>
    simp only [List.mem_cons, not_or] at h
    have hc : ¬ c = sep := fun hh => h.1 hh.symm
    rw [splitOnChar, if_neg hc, ih h.2]

theorem splitOnChar_append_cons {sep : Char} {x : List Char} (y : List Char)
    (h : sep ∉ x) : splitOnChar sep (x ++ sep :: y) = x :: splitOnChar sep y := by
  induction x with
  | nil => simp [splitOnChar]
  | cons c cs ih =>
    simp only [List.mem_cons, not_or] at h
    have hc : ¬ c = sep := fun hh => h.1 hh.symm
    rw [List.cons_append, splitOnChar, if_neg hc, ih h.2]

theorem splitOnChar_length_two {sep : Char} {l : List Char} (h : sep ∈ l) :
    2 ≤ (splitOnChar sep l).length := by
  induction l with
  | nil => simp at h
  | cons c cs ih =>
    rw [splitOnChar]
    by_cases hc : c = sep
    · rw [if_pos hc]
      have := splitOnChar_ne_nil sep cs
      cases hcs : splitOnChar sep cs with
      | nil => exact absurd hcs this
      | cons p ps => simp
    · rw [if_neg hc]
      have hmem : sep ∈ cs := by
        rcases List.mem_cons.mp h with h1 | h1
        · exact absurd h1.symm hc
        · exact h1
      have h2 := ih hmem
      cases hcs : splitOnChar sep cs with
      | nil => exact absurd hcs (splitOnChar_ne_nil sep cs)
      | cons p ps => rw [hcs] at h2; simpa using h2

/-! ### Lemmas about `lstrip`, `rstrip`, `pstrip` -/

theorem lstrip_cons_pos {c : Char} (h : isSpaceChar c = true) (l : List Char) :
    lstrip (c :: l) = lstrip l := by
  rw [lstrip, lstrip, List.dropWhile_cons, if_pos h]

theorem lstrip_cons_neg {c : Char} (h : isSpaceChar c = false) (l : List Char) :
    lstrip (c :: l) = c :: l := by
  rw [lstrip, List.dropWhile_cons, if_neg (by simp [h])]

theorem lstrip_append {x : List Char} (h : lstrip x ≠ []) (y : List Char) :
    lstrip (x ++ y) = lstrip x ++ y := by
  induction x with
  | nil => exact absurd rfl h
  | cons c cs ih =>
    cases hc : isSpaceChar c with
    | true =>
      rw [List.cons_append, lstrip_cons_pos hc, lstrip_cons_pos hc]
      rw [lstrip_cons_pos hc] at h
      exact ih h
    | false =>
      rw [List.cons_append, lstrip_cons_neg hc, lstrip_cons_neg hc, List.cons_append]

theorem lstrip_suffix (l : List Char) : lstrip l <:+ l := List.dropWhile_suffix _

theorem rstrip_isPre (l : List Char) : rstrip l <+: l := by
  have h : lstrip l.reverse <:+ l.reverse := lstrip_suffix _
  have h2 := List.reverse_prefix.mpr h
  simpa [rstrip, lstrip] using h2

theorem rstrip_append {y : List Char} (h : rstrip y ≠ []) (x : List Char) :
    rstrip (x ++ y) = x ++ rstrip y := by
  have hy : lstrip y.reverse ≠ [] := by
    intro hh
    apply h
    rw [rstrip, lstrip] at *
    rw [hh]
    rfl
  rw [rstrip, List.reverse_append]
  rw [show List.dropWhile isSpaceChar (y.reverse ++ x.reverse)
        = lstrip (y.reverse ++ x.reverse) from rfl]
  rw [lstrip_append hy]
  rw [List.reverse_append, List.reverse_reverse]
  rfl

theorem length_lstrip_le (l : List Char) : (lstrip l).length ≤ l.length :=
  (lstrip_suffix l).sublist.length_le

theorem length_rstrip_le (l : List Char) : (rstrip l).length ≤ l.length :=
  (rstrip_isPre l).sublist.length_le

theorem pstrip_parts {l : List Char} (h : pstrip l = l) :
    lstrip l = l ∧ rstrip l = l := by
  have h1 : (pstrip l).length ≤ (lstrip l).length := length_rstrip_le _
  have h2 : (lstrip l).length ≤ l.length := length_lstrip_le _
  have hlen : (lstrip l).length = l.length := by
    rw [h] at h1; omega
  have hls : lstrip l = l := (lstrip_suffix l).eq_of_length hlen
  constructor
  · exact hls
  · rw [pstrip, hls] at h; exact h

theorem pstrip_eq_self {l : List Char} (h1 : lstrip l = l) (h2 : rstrip l = l) :
    pstrip l = l := by rw [pstrip, h1, h2]

theorem pstrip_cons_pos {c : Char} (h : isSpaceChar c = true) (l : List Char) :
    pstrip (c :: l) = pstrip l := by rw [pstrip, lstrip_cons_pos h]; rfl

theorem pstrip_nil : pstrip [] = [] := rfl

theorem mem_of_mem_pstrip {a : Char} {l : List Char} (h : a ∈ pstrip l) : a ∈ l := by
  have h1 : a ∈ lstrip l := ((rstrip_isPre (lstrip l)).sublist).mem h
  exact ((lstrip_suffix l).sublist).mem h1

/-! ### Characterisation of the `Question \d+:` marker match -/

theorem takeWhile_dropWhile_append {p : Char → Bool} {ds : List Char} {x : Char}
    {t : List Char} (h : ∀ c ∈ ds, p c = true) (hx : p x = false) :
    (ds ++ x :: t).takeWhile p = ds ∧ (ds ++ x :: t).dropWhile p = x :: t := by
  induction ds with
  | nil => simp [List.takeWhile_cons, List.dropWhile_cons, hx]
  | cons d ds ih =>
    have hd : p d = true := h d (List.mem_cons_self d ds)
    have ih2 := ih (fun c hc => h c (List.mem_cons_of_mem d hc))
    simp [List.takeWhile_cons, List.dropWhile_cons, hd, ih2.1, ih2.2]

theorem qMarkerRest_eq_some_iff {cs r : List Char} :
    qMarkerRest cs = some r ↔
      ∃ ds, ds ≠ [] ∧ (∀ c ∈ ds, c.isDigit = true) ∧ cs = qStr ++ ds ++ ':' :: r := by
  constructor
  · intro h
    rw [qMarkerRest] at h
    by_cases hp : qStr.isPrefixOf cs
    case neg => rw [if_neg hp] at h; cases h
    case pos =>
      rw [if_pos hp] at h
      obtain ⟨t, ht⟩ := List.isPrefixOf_iff_prefix.mp hp
      have hdrop : cs.drop 9 = t := by
        rw [← ht]
        exact List.drop_left qStr t
      rw [hdrop] at h
      by_cases htw : t.takeWhile Char.isDigit = []
      case pos => rw [if_pos htw] at h; cases h
      case neg =>
        rw [if_neg htw] at h
        cases hdw : t.dropWhile Char.isDigit with
        | nil => rw [hdw] at h; cases h
        | cons e r' =>
          rw [hdw] at h
          by_cases he : e = ':'
          case neg => simp [he] at h
          case pos =>
            subst he
            have hr : r' = r := by simpa using h
            subst hr
            refine ⟨t.takeWhile Char.isDigit, htw, ?_, ?_⟩
            · intro c hc
              exact List.mem_takeWhile_imp hc
            · rw [← ht]
              conv_lhs => rw [← List.takeWhile_append_dropWhile (p := Char.isDigit) (l := t)]
              rw [hdw, List.append_assoc]
  · rintro ⟨ds, hne, hdig, rfl⟩
    have hp : qStr.isPrefixOf (qStr ++ ds ++ ':' :: r) = true := by
      rw [List.isPrefixOf_iff_prefix, List.append_assoc]
      exact List.prefix_append qStr (ds ++ ':' :: r)
    rw [qMarkerRest, if_pos hp]
    have hdrop : (qStr ++ ds ++ ':' :: r).drop 9 = ds ++ ':' :: r := by
      rw [List.append_assoc]
      exact List.drop_left qStr (ds ++ ':' :: r)
    rw [hdrop]
    have htd := takeWhile_dropWhile_append (p := Char.isDigit) hdig
      (show Char.isDigit ':' = false by decide) (t := r)
    rw [htd.1, htd.2, if_neg hne]
    simp

theorem qMarkerRest_cons_ne {c : Char} {t : List Char} (h : c ≠ 'Q') :
    qMarkerRest (c :: t) = none := by
  rw [qMarkerRest, if_neg]
  intro hp
  have := List.isPrefixOf_iff_prefix.mp hp
  rw [show qStr = 'Q' :: ['u', 'e', 's', 't', 'i', 'o', 'n', ' '] from rfl] at this
  exact h (List.cons_prefix_cons.mp this).1.symm

theorem qMarkerRest_nil : qMarkerRest [] = none := by
  rw [qMarkerRest, if_neg]
  intro hp
  have := List.isPrefixOf_iff_prefix.mp hp
  simp [qStr] at this

/-- If a marker matches at the head of `x ++ y` but not at the head of `x`,
the match crosses the boundary: `x ++ t` is the full marker text for some
non-empty `t` that is an initial part of `y`. -/
theorem qMarkerRest_append_cases {x y r : List Char} (hx : qMarkerRest x = none)
    (h : qMarkerRest (x ++ y) = some r) :
    ∃ ds t, ds ≠ [] ∧ (∀ c ∈ ds, c.isDigit = true) ∧ t ≠ [] ∧
      x ++ t = qStr ++ ds ++ [':'] ∧ y = t ++ r := by
  obtain ⟨ds, hne, hdig, heq⟩ := qMarkerRest_eq_some_iff.mp h
  have heq2 : x ++ y = (qStr ++ ds ++ [':']) ++ r := by
    rw [heq]; simp [List.append_assoc]
  rcases List.append_eq_append_iff.mp heq2 with ⟨t, ht1, ht2⟩ | ⟨u, hu1, hu2⟩
  · refine ⟨ds, t, hne, hdig, ?_, ht1.symm, ht2⟩
    rintro rfl
    have hx' : x = qStr ++ ds ++ ':' :: [] := by
      have := ht1.symm
      simpa using this
    have : qMarkerRest x = some [] := qMarkerRest_eq_some_iff.mpr ⟨ds, hne, hdig, hx'⟩
    rw [this] at hx
    cases hx
  · exfalso
    have : qMarkerRest x = some u := qMarkerRest_eq_some_iff.mpr
      ⟨ds, hne, hdig, by rw [hu1]; simp [List.append_assoc]⟩
    rw [this] at hx
    cases hx

/-- No marker match can start strictly inside `x` and extend into `y`, when
`y` begins with a newline or with the `Q` that opens a fresh marker. -/
theorem qMarkerRest_append_none {x y : List Char} (hxne : x ≠ [])
    (hx : qMarkerRest x = none)
    (hy : ∀ h t, y = h :: t → h = '\n' ∨ h = 'Q') :
    qMarkerRest (x ++ y) = none := by
  cases hq : qMarkerRest (x ++ y) with
  | none => rfl
  | some r =>
    exfalso
    obtain ⟨ds, t, hdne, hdig, htne, hxt, hyt⟩ := qMarkerRest_append_cases hx hq
    obtain ⟨t0, t', rfl⟩ := List.exists_cons_of_ne_nil htne
    obtain ⟨x0, x', rfl⟩ := List.exists_cons_of_ne_nil hxne
    have hx0 : x0 = 'Q' ∧ x' ++ t0 :: t' = ['u', 'e', 's', 't', 'i', 'o', 'n', ' '] ++ ds ++ [':'] := by
      rw [show qStr ++ ds ++ [':']
            = 'Q' :: (['u', 'e', 's', 't', 'i', 'o', 'n', ' '] ++ ds ++ [':']) from by
          simp [qStr]] at hxt
      rw [List.cons_append] at hxt
      exact ⟨by injection hxt, by injection hxt with h1 h2⟩
    have ht0mem : t0 ∈ ['u', 'e', 's', 't', 'i', 'o', 'n', ' '] ++ ds ++ [':'] := by
      rw [← hx0.2]
      exact List.mem_append_right x' (List.mem_cons_self t0 t')
    have ht0 : t0 = '\n' ∨ t0 = 'Q' := hy t0 (t' ++ r) hyt
    rcases List.mem_append.mp ht0mem with hm | hm
    · rcases List.mem_append.mp hm with hm2 | hm2
      · rcases ht0 with rfl | rfl <;> simp at hm2
      · have := hdig t0 hm2
        rcases ht0 with rfl | rfl <;> simp [Char.isDigit] at this
    · rcases ht0 with rfl | rfl <;> simp at hm

/-! ### Lemmas about `splitFirst` -/

theorem splitFirst_cons_none_iff {c : Char} {cs : List Char} :
    splitFirst (c :: cs) = none ↔
      qMarkerRest (c :: cs) = none ∧ splitFirst cs = none := by
  rw [splitFirst]
  cases hq : qMarkerRest (c :: cs) with
  | some rest => simp
  | none =>
    cases hs : splitFirst cs with
    | none => simp
    | some p => simp

theorem splitFirst_of_qMarkerRest {l r : List Char} (h : qMarkerRest l = some r) :
    splitFirst l = some ([], r) := by
  cases l with
  | nil => rw [qMarkerRest_nil] at h; cases h
  | cons c cs => rw [splitFirst, h]

theorem splitFirst_post_length {cs p r : List Char}
    (h : splitFirst cs = some (p, r)) : r.length < cs.length := by
  induction cs generalizing p with
  | nil => cases h
  | cons c cs ih =>
    rw [splitFirst] at h
    cases hq : qMarkerRest (c :: cs) with
    | some rest =>
      rw [hq] at h
      obtain ⟨ds, hne, hdig, hcs⟩ := qMarkerRest_eq_some_iff.mp hq
      have hr : rest = r := by
        injection h with h1
        injection h1
      have hlen : (c :: cs).length = (qStr ++ ds ++ ':' :: rest).length :=
        congrArg List.length hcs
      subst hr
      simp only [qStr, List.length_append, List.length_cons] at hlen
      simp only [List.length_cons] at hlen ⊢
      omega
    | none =>
      rw [hq] at h
      cases hs : splitFirst cs with
      | none => rw [hs] at h; cases h
      | some pr =>
        rw [hs] at h
        have hr : pr.2 = r := by
          injection h with h1
          injection h1
        subst hr
        have := ih (p := pr.1) (by rw [hs])
        simpa using Nat.lt_succ_of_lt this

theorem splitFirst_append_nl {x y : List Char} (hx : splitFirst x = none)
    (hy : splitFirst y = none) : splitFirst (x ++ '\n' :: y) = none := by
  induction x with
  | nil =>
    rw [List.nil_append, splitFirst_cons_none_iff]
    exact ⟨qMarkerRest_cons_ne (by decide), hy⟩
  | cons c cs ih =>
    rw [splitFirst_cons_none_iff] at hx
    rw [List.cons_append, splitFirst_cons_none_iff, ← List.cons_append]
    refine ⟨?_, ih hx.2⟩
    exact qMarkerRest_append_none (by simp) hx.1
      (by rintro h t heq; injection heq with h1 h2; exact Or.inl h1.symm)

theorem splitFirst_append_marker {pre ds rest : List Char}
    (hpre : splitFirst pre = none) (hne : ds ≠ [])
    (hdig : ∀ c ∈ ds, c.isDigit = true) :
    splitFirst (pre ++ (qStr ++ ds ++ ':' :: rest)) = some (pre, rest) := by
  induction pre with
  | nil =>
    rw [List.nil_append]
    exact splitFirst_of_qMarkerRest (qMarkerRest_eq_some_iff.mpr ⟨ds, hne, hdig, rfl⟩)
  | cons c p ih =>
    rw [splitFirst_cons_none_iff] at hpre
    have h1 : qMarkerRest ((c :: p) ++ (qStr ++ ds ++ ':' :: rest)) = none := by
      refine qMarkerRest_append_none (by simp) hpre.1 ?_
      rintro h t heq
      right
      rw [show qStr ++ ds ++ ':' :: rest
            = 'Q' :: (['u', 'e', 's', 't', 'i', 'o', 'n', ' '] ++ ds ++ ':' :: rest)
          from by simp [qStr]] at heq
      injection heq with h1 h2
      exact h1.symm
    rw [List.cons_append, splitFirst]
    rw [← List.cons_append, h1, ih hpre.2]
    rfl

/-! ### Lemmas about `reSplitQ` -/

theorem reSplitQAux_congr : ∀ (n m : Nat) (cs : List Char),
    cs.length < n → cs.length < m → reSplitQAux n cs = reSplitQAux m cs := by
  intro n
  induction n with
  | zero => intro m cs h1 h2; omega
  | succ n ih =>
    intro m cs h1 h2
    cases m with
    | zero => omega
    | succ m =>
      rw [reSplitQAux, reSplitQAux]
      cases hs : splitFirst cs with
      | none => rfl
      | some pr =>
        obtain ⟨p, r⟩ := pr
        have hlen := splitFirst_post_length hs
        show p :: reSplitQAux n r = p :: reSplitQAux m r
        rw [ih m r (by omega) (by omega)]

theorem reSplitQ_of_none {cs : List Char} (h : splitFirst cs = none) :
    reSplitQ cs = [cs] := by
  rw [reSplitQ, reSplitQAux, h]

theorem reSplitQ_of_some {cs p r : List Char} (h : splitFirst cs = some (p, r)) :
    reSplitQ cs = p :: reSplitQ r := by
  rw [reSplitQ, reSplitQAux, h, reSplitQ]
  have hlen := splitFirst_post_length h
  show p :: reSplitQAux cs.length r = p :: reSplitQAux (r.length + 1) r
  rw [reSplitQAux_congr cs.length (r.length + 1) r (by omega) (by omega)]

theorem isPrefixOf_cons_ne {a b : Char} {as l : List Char} (h : a ≠ b) :
    (a :: as).isPrefixOf (b :: l) = false := by
  rw [Bool.eq_false_iff]
  intro hp
  exact h (List.cons_prefix_cons.mp (List.isPrefixOf_iff_prefix.mp hp)).1

theorem isPrefixOf_cons_cons_ne {a a' b b' : Char} {as l : List Char}
    (h : a ≠ b ∨ a' ≠ b') : (a :: a' :: as).isPrefixOf (b :: b' :: l) = false := by
  rw [Bool.eq_false_iff]
  intro hp
  have h1 := List.cons_prefix_cons.mp (List.isPrefixOf_iff_prefix.mp hp)
  have h2 := List.cons_prefix_cons.mp h1.2
  rcases h with h | h
  · exact h h1.1
  · exact h h2.1

theorem isPrefixOf_append_self (l t : List Char) : l.isPrefixOf (l ++ t) = true :=
  List.isPrefixOf_iff_prefix.mpr (List.prefix_append l t)

theorem splitFirst_append_nonQ {pre l : List Char} (hpre : ∀ c ∈ pre, c ≠ 'Q')
    (hl : splitFirst l = none) : splitFirst (pre ++ l) = none := by
  induction pre with
  | nil => exact hl
  | cons c p ih =>
    rw [List.cons_append, splitFirst_cons_none_iff]
    refine ⟨qMarkerRest_cons_ne (hpre c (List.mem_cons_self c p)), ?_⟩
    exact ih (fun c' hc' => hpre c' (List.mem_cons_of_mem c hc'))

theorem splitFirst_joinLines {ls : List (List Char)}
    (h : ∀ l ∈ ls, splitFirst l = none) : splitFirst (joinLines ls) = none := by
  induction ls with
  | nil => rfl
  | cons l ls' ih =>
    cases ls' with
    | nil => exact h l (List.mem_cons_self l [])
    | cons l' ls'' =>
      rw [joinLines]
      exact splitFirst_append_nl (h l (List.mem_cons_self l _))
        (ih (fun x hx => h x (List.mem_cons_of_mem l hx)))

theorem splitOnChar_nl_joinLines {ls : List (List Char)} (hne : ls ≠ [])
    (h : ∀ l ∈ ls, '\n' ∉ l) : splitOnChar '\n' (joinLines ls) = ls := by
  induction ls with
  | nil => exact absurd rfl hne
  | cons l ls' ih =>
    cases ls' with
    | nil => exact splitOnChar_of_not_mem (h l (List.mem_cons_self l []))
    | cons l' ls'' =>
      rw [joinLines, splitOnChar_append_cons _ (h l (List.mem_cons_self l _))]
      rw [ih (by simp) (fun x hx => h x (List.mem_cons_of_mem l hx))]

theorem joinLines_ne_nil {l : List Char} {ls : List (List Char)}
    (h : (l :: ls).getLastD [] ≠ []) : joinLines (l :: ls) ≠ [] := by
  cases ls with
  | nil => simpa [joinLines, List.getLastD_cons] using h
  | cons l' ls' =>
    rw [joinLines]
    simp

theorem rstrip_cons_of_rstrip_ne {c : Char} {l : List Char} (h : rstrip l ≠ []) :
    rstrip (c :: l) = c :: rstrip l := by
  have := rstrip_append h [c]
  simpa using this

theorem rstrip_joinLines {ls : List (List Char)} (hne : ls ≠ [])
    (hl : rstrip (ls.getLastD []) = ls.getLastD []) (hn : ls.getLastD [] ≠ []) :
    rstrip (joinLines ls) = joinLines ls := by
  induction ls with
  | nil => exact absurd rfl hne
  | cons l ls' ih =>
    cases ls' with
    | nil =>
      rw [joinLines]
      simpa [List.getLastD_cons] using hl
    | cons l' ls'' =>
      rw [List.getLastD_cons, List.getLastD_cons] at hl hn
      have hl' : (l' :: ls'').getLastD [] = ls''.getLastD l' := List.getLastD_cons _ _ _
      have ihh := ih (by simp) (by rw [hl']; exact hl) (by rw [hl']; exact hn)
      have hJne : joinLines (l' :: ls'') ≠ [] := joinLines_ne_nil (by rw [hl']; exact hn)
      rw [joinLines]
      have h1 : rstrip ('\n' :: joinLines (l' :: ls'')) = '\n' :: joinLines (l' :: ls'') := by
        rw [rstrip_cons_of_rstrip_ne (by rw [ihh]; exact hJne), ihh]
      rw [rstrip_append (by rw [h1]; simp) l, h1]

theorem pstrip_joinLines {l : List Char} {ls : List (List Char)}
    (h0 : lstrip l = l) (h0n : l ≠ [])
    (hl : rstrip ((l :: ls).getLastD []) = (l :: ls).getLastD [])
    (hn : (l :: ls).getLastD [] ≠ []) :
    pstrip (joinLines (l :: ls)) = joinLines (l :: ls) := by
  have hlstr : lstrip (joinLines (l :: ls)) = joinLines (l :: ls) := by
    cases ls with
    | nil => exact h0
    | cons l' ls' =>
      rw [joinLines]
      rw [lstrip_append (by rw [h0]; exact h0n)]
      rw [h0]
  exact pstrip_eq_self hlstr (rstrip_joinLines (by simp) hl hn)

theorem pstrip_prepend {c : Char} {t x : List Char} (hc : isSpaceChar c = false)
    (hx : rstrip x = x) (hxne : x ≠ []) :
    pstrip ((c :: t) ++ x) = (c :: t) ++ x := by
  apply pstrip_eq_self
  · rw [List.cons_append]
    exact lstrip_cons_neg hc _
  · rw [rstrip_append (by rw [hx]; exact hxne) (c :: t), hx]

theorem pstrip_optLine {L : Char} {x : List Char} (hL : isSpaceChar L = false)
    (hx : pstrip x = x) :
    pstrip (optLine L x) = if x = [] then [L, ')'] else optLine L x := by
  by_cases hxe : x = []
  · subst hxe
    rw [if_pos rfl, optLine, pstrip, lstrip_cons_neg hL]
    show rstrip [L, ')', ' '] = [L, ')']
    rw [rstrip]
    rw [show ([L, ')', ' '] : List Char).reverse = [' ', ')', L] from by simp]
    rw [List.dropWhile_cons, if_pos (by rfl), List.dropWhile_cons,
      if_neg (by simp [isSpaceChar])]
    simp
  · rw [if_neg hxe]
    show pstrip ((L :: [')', ' ']) ++ x) = (L :: [')', ' ']) ++ x
    exact pstrip_prepend hL (pstrip_parts hx).2 hxe

theorem nl_not_mem_optLine {L : Char} {a : List Char} (hL : ('\n' : Char) ≠ L)
    (ha : '\n' ∉ a) : '\n' ∉ optLine L a := by
  intro hm
  rcases List.mem_cons.mp hm with h | hm
  · exact hL h
  rcases List.mem_cons.mp hm with h | hm
  · exact absurd h (by decide)
  rcases List.mem_cons.mp hm with h | hm
  · exact absurd h (by decide)
  exact ha hm

theorem nl_not_mem_caLine {a : List Char} (ha : '\n' ∉ a) : '\n' ∉ caLine a := by
  intro hm
  rw [caLine] at hm
  rcases List.mem_append.mp hm with h | hm
  · revert h
    decide
  · rcases List.mem_cons.mp hm with h | hm
    · exact absurd h (by decide)
    · exact ha hm

theorem mcqLine_A {st : MCQState} {x : List Char} (hx : pstrip x = x) :
    mcqLine st (optLine 'A' x) = { st with optA := some x } := by
  simp only [mcqLine]
  rw [pstrip_optLine (L := 'A') rfl hx]
  by_cases hxe : x = []
  · subst hxe
    rw [if_pos rfl]
    rfl
  · rw [if_neg hxe]
    show { st with optA := some (pstrip ((optLine 'A' x).drop 2)) }
      = { st with optA := some x }
    rw [show (optLine 'A' x).drop 2 = ' ' :: x from rfl,
      pstrip_cons_pos (c := ' ') rfl, hx]

theorem mcqLine_B {st : MCQState} {x : List Char} (hx : pstrip x = x) :
    mcqLine st (optLine 'B' x) = { st with optB := some x } := by
  simp only [mcqLine]
  rw [pstrip_optLine (L := 'B') rfl hx]
  by_cases hxe : x = []
  · subst hxe
    rw [if_pos rfl]
    rfl
  · rw [if_neg hxe]
    show { st with optB := some (pstrip ((optLine 'B' x).drop 2)) }
      = { st with optB := some x }
    rw [show (optLine 'B' x).drop 2 = ' ' :: x from rfl,
      pstrip_cons_pos (c := ' ') rfl, hx]

theorem mcqLine_C {st : MCQState} {x : List Char} (hx : pstrip x = x) :
    mcqLine st (optLine 'C' x) = { st with optC := some x } := by
  simp only [mcqLine]
  rw [pstrip_optLine (L := 'C') rfl hx]
  by_cases hxe : x = []
  · subst hxe
    rw [if_pos rfl]
    rfl
  · rw [if_neg hxe]
    show { st with optC := some (pstrip ((optLine 'C' x).drop 2)) }
      = { st with optC := some x }
    rw [show (optLine 'C' x).drop 2 = ' ' :: x from rfl,
      pstrip_cons_pos (c := ' ') rfl, hx]

theorem mcqLine_D {st : MCQState} {x : List Char} (hx : pstrip x = x) :
    mcqLine st (optLine 'D' x) = { st with optD := some x } := by
  simp only [mcqLine]
  rw [pstrip_optLine (L := 'D') rfl hx]
  by_cases hxe : x = []
  · subst hxe
    rw [if_pos rfl]
    rfl
  · rw [if_neg hxe]
    show { st with optD := some (pstrip ((optLine 'D' x).drop 2)) }
      = { st with optD := some x }
    rw [show (optLine 'D' x).drop 2 = ' ' :: x from rfl,
      pstrip_cons_pos (c := ' ') rfl, hx]

theorem pstrip_caLine {x : List Char} (hx : pstrip x = x) (hxne : x ≠ []) :
    pstrip (caLine x) = caLine x := by
  show pstrip (('C' :: "orrect Answer: ".toList) ++ x) = caLine x
  rw [pstrip_prepend (c := 'C') rfl (pstrip_parts hx).2 hxne]
  rfl

theorem splitOnChar_caLine {x : List Char} (hnc : ':' ∉ x) :
    splitOnChar ':' (caLine x) = ["Correct Answer".toList, ' ' :: x] := by
  rw [show caLine x = "Correct Answer".toList ++ ':' :: (' ' :: x) from rfl]
  rw [splitOnChar_append_cons _ (by decide)]
  rw [splitOnChar_of_not_mem (l := ' ' :: x) ?_]
  intro hmem
  rcases List.mem_cons.mp hmem with h | h
  · exact absurd h (by decide)
  · exact hnc h

theorem mcqLine_ca {st : MCQState} {x : List Char} (hx : pstrip x = x)
    (hxne : x ≠ []) (hnc : ':' ∉ x) :
    mcqLine st (caLine x) = { st with correct := some x } := by
  simp only [mcqLine]
  rw [pstrip_caLine hx hxne]
  show { st with correct := some (pstrip (colonTail1 (caLine x))) }
    = { st with correct := some x }
  have h1 : colonTail1 (caLine x) = ' ' :: x := by
    simp only [colonTail1, splitOnChar_caLine hnc]
  rw [h1, pstrip_cons_pos (c := ' ') rfl, hx]

theorem splitFirst_optLine {L : Char} {x : List Char} (hL : L ≠ 'Q')
    (hx : splitFirst x = none) : splitFirst (optLine L x) = none := by
  show splitFirst ([L, ')', ' '] ++ x) = none
  apply splitFirst_append_nonQ ?_ hx
  intro c hc
  rcases List.mem_cons.mp hc with rfl | hc
  · exact hL
  rcases List.mem_cons.mp hc with rfl | hc
  · decide
  rcases List.mem_cons.mp hc with rfl | hc
  · decide
  · simp at hc

theorem splitFirst_caLine {x : List Char} (hx : splitFirst x = none) :
    splitFirst (caLine x) = none := by
  show splitFirst ((caLabel ++ [' ']) ++ x) = none
  apply splitFirst_append_nonQ ?_ hx
  intro c hc
  rcases List.mem_append.mp hc with h | h
  · fin_cases h <;> decide
  · simp at h
    subst h
    decide

theorem splitFirst_mcqBody {q a b c d ans : List Char} (hq : splitFirst q = none)
    (ha : splitFirst a = none) (hb : splitFirst b = none) (hc : splitFirst c = none)
    (hd : splitFirst d = none) (hans : splitFirst ans = none) :
    splitFirst (mcqBody q a b c d ans) = none := by
  show splitFirst ([] ++ '\n' :: joinLines (mcqLines q a b c d ans)) = none
  apply splitFirst_append_nl (x := []) rfl
  apply splitFirst_joinLines
  intro l hl
  rw [mcqLines] at hl
  rcases List.mem_cons.mp hl with rfl | hl
  · exact hq
  rcases List.mem_cons.mp hl with rfl | hl
  · exact splitFirst_optLine (by decide) ha
  rcases List.mem_cons.mp hl with rfl | hl
  · exact splitFirst_optLine (by decide) hb
  rcases List.mem_cons.mp hl with rfl | hl
  · exact splitFirst_optLine (by decide) hc
  rcases List.mem_cons.mp hl with rfl | hl
  · exact splitFirst_optLine (by decide) hd
  rcases List.mem_cons.mp hl with rfl | hl
  · exact splitFirst_caLine hans
  · simp at hl

/-- Evaluation of one well-formed rendered MCQ segment. -/
theorem parseMCQSegment_mcqBody {q a b c d ans : List Char}
    (hq : pstrip q = q) (hqne : q ≠ []) (hqn : '\n' ∉ q)
    (ha : pstrip a = a) (han : '\n' ∉ a)
    (hb : pstrip b = b) (hbn : '\n' ∉ b)
    (hc : pstrip c = c) (hcn : '\n' ∉ c)
    (hd : pstrip d = d) (hdn : '\n' ∉ d)
    (hans : pstrip ans = ans) (hansne : ans ≠ []) (hansn : '\n' ∉ ans)
    (hanc : ':' ∉ ans) :
    parseMCQSegment (mcqBody q a b c d ans) = some ⟨q, a, b, c, d, ans⟩ := by
  have hstrip : pstrip (mcqBody q a b c d ans) = joinLines (mcqLines q a b c d ans) := by
    rw [mcqBody, pstrip_cons_pos (c := '\n') rfl]
    apply pstrip_joinLines (pstrip_parts hq).1 hqne
    · show rstrip (caLine ans) = caLine ans
      rw [show caLine ans = (caLabel ++ [' ']) ++ ans from rfl]
      rw [rstrip_append (by rw [(pstrip_parts hans).2]; exact hansne)]
      rw [(pstrip_parts hans).2]
    · show caLine ans ≠ []
      simp [caLine, caLabel]
  have hmem : ∀ l ∈ mcqLines q a b c d ans, '\n' ∉ l := by
    intro l hl
    rw [mcqLines] at hl
    rcases List.mem_cons.mp hl with rfl | hl
    · exact hqn
    rcases List.mem_cons.mp hl with rfl | hl
    · exact nl_not_mem_optLine (by decide) han
    rcases List.mem_cons.mp hl with rfl | hl
    · exact nl_not_mem_optLine (by decide) hbn
    rcases List.mem_cons.mp hl with rfl | hl
    · exact nl_not_mem_optLine (by decide) hcn
    rcases List.mem_cons.mp hl with rfl | hl
    · exact nl_not_mem_optLine (by decide) hdn
    rcases List.mem_cons.mp hl with rfl | hl
    · exact nl_not_mem_caLine hansn
    · simp at hl
  have hsplit : splitOnChar '\n' (joinLines (mcqLines q a b c d ans))
      = mcqLines q a b c d ans :=
    splitOnChar_nl_joinLines (by rw [mcqLines]; simp) hmem
  simp only [parseMCQSegment, hstrip, hsplit]
  rw [if_neg (by rw [mcqLines]; simp)]
  rw [show (mcqLines q a b c d ans).drop 1
        = [optLine 'A' a, optLine 'B' b, optLine 'C' c, optLine 'D' d, caLine ans]
      from rfl]
  rw [List.foldl_cons, mcqLine_A ha, List.foldl_cons, mcqLine_B hb,
    List.foldl_cons, mcqLine_C hc, List.foldl_cons, mcqLine_D hd,
    List.foldl_cons, mcqLine_ca hans hansne hanc, List.foldl_nil]
  rw [show (mcqLines q a b c d ans).headD [] = q from rfl, hq]
  show (if q ≠ [] ∧ ans ≠ [] then some (⟨q, a, b, c, d, ans⟩ : MCQRecord) else none)
    = some ⟨q, a, b, c, d, ans⟩
  rw [if_pos ⟨hqne, hansne⟩]

theorem blockBody_splitFirst {blk : MCQBlock} (h : blockWF blk) :
    splitFirst (blockBody blk) = none := by
  cases blk with
  | good ds q a b c d ans =>
    obtain ⟨_, _, hq, _, ha, hb, hc, hd, hans, _, _⟩ := h
    exact splitFirst_mcqBody hq.2.2 ha.2.2 hb.2.2 hc.2.2 hd.2.2 hans.2.2
  | bad ds body => exact h.2.2.1

theorem reSplitQ_renderBlocks (blocks : List MCQBlock)
    (h : ∀ blk ∈ blocks, blockWF blk) :
    ∀ pre, splitFirst pre = none →
      reSplitQ (pre ++ renderBlocks blocks) = pre :: blocks.map blockBody := by
  induction blocks with
  | nil =>
    intro pre hpre
    rw [renderBlocks, List.append_nil, reSplitQ_of_none hpre, List.map_nil]
  | cons blk blks ih =>
    intro pre hpre
    have hblk : blockWF blk := h blk (List.mem_cons_self blk blks)
    have hds : blockDigits blk ≠ [] ∧ ∀ ch ∈ blockDigits blk, ch.isDigit = true := by
      cases blk with
      | good ds q a b c d ans => exact ⟨hblk.1, hblk.2.1⟩
      | bad ds body => exact ⟨hblk.1, hblk.2.1⟩
    have hsf : splitFirst (pre ++ renderBlocks (blk :: blks))
        = some (pre, blockBody blk ++ renderBlocks blks) := by
      rw [renderBlocks, renderBlock]
      rw [show (qStr ++ blockDigits blk ++ ':' :: blockBody blk) ++ renderBlocks blks
            = qStr ++ blockDigits blk ++ ':' :: (blockBody blk ++ renderBlocks blks)
          from by simp [List.append_assoc]]
      rw [show pre ++ (qStr ++ blockDigits blk ++ ':' :: (blockBody blk ++ renderBlocks blks))
            = pre ++ (qStr ++ blockDigits blk ++ ':' :: (blockBody blk ++ renderBlocks blks))
          from rfl]
      exact @splitFirst_append_marker pre (blockDigits blk)
        (blockBody blk ++ renderBlocks blks) hpre hds.1 hds.2
    rw [reSplitQ_of_some hsf]
    rw [ih (fun b hb => h b (List.mem_cons_of_mem blk hb)) (blockBody blk)
      (blockBody_splitFirst hblk)]
    rw [List.map_cons]

/-- Main rendering theorem for `parse_mcqs`: a completion made of rendered
blocks parses to exactly the records of the well-formed blocks, in order. -/
theorem parse_mcqs_renderBlocks (blocks : List MCQBlock)
    (h : ∀ blk ∈ blocks, blockWF blk) :
    parse_mcqs (renderBlocks blocks) = blocks.filterMap blockRecord := by
  rw [parse_mcqs]
  have hsplit := reSplitQ_renderBlocks blocks h [] rfl
  rw [List.nil_append] at hsplit
  rw [hsplit, List.drop_one, List.tail_cons, List.filterMap_map]
  apply List.filterMap_congr
  intro blk hblk
  have hwf := h blk hblk
  cases blk with
  | good ds q a b c d ans =>
    obtain ⟨_, _, hq, hqne, ha, hb, hc, hd, hans, hansne, hanc⟩ := hwf
    show parseMCQSegment (mcqBody q a b c d ans) = some ⟨q, a, b, c, d, ans⟩
    exact parseMCQSegment_mcqBody hq.1 hqne hq.2.1 ha.1 ha.2.1 hb.1 hb.2.1
      hc.1 hc.2.1 hd.1 hd.2.1 hans.1 hansne hans.2.1 hanc
  | bad ds body =>
    show parseMCQSegment body = none
    exact hwf.2.2.2

/-! ### Totality of the parsers: the `Except` variants never fail -/

theorem lowerChar_eq_colon {c : Char} (h : lowerChar c = ':') : c = ':' := by
  unfold lowerChar at h
  split at h <;> first
    | exact absurd h (by decide)
    | exact h

theorem colon_mem_of_plower {l : List Char} (h : ':' ∈ plower l) : ':' ∈ l := by
  rw [plower] at h
  obtain ⟨c, hc, hlc⟩ := List.mem_map.mp h
  rw [lowerChar_eq_colon hlc] at hc
  exact hc

theorem colon_mem_of_label {lab l : List Char} (hmem : ':' ∈ lab)
    (h : lab.isPrefixOf l = true) : ':' ∈ l := by
  obtain ⟨t, ht⟩ := List.isPrefixOf_iff_prefix.mp h
  rw [← ht]
  exact List.mem_append_left t hmem

theorem colonTail1E_eq {l : List Char} (h : ':' ∈ l) :
    colonTail1E l = Except.ok (colonTail1 l) := by
  have h2 := splitOnChar_length_two h
  rw [colonTail1E, colonTail1]
  cases hs : splitOnChar ':' l with
  | nil => exact absurd hs (splitOnChar_ne_nil ':' l)
  | cons p ps =>
    cases ps with
    | nil => rw [hs] at h2; simp at h2
    | cons p2 ps2 => rfl

theorem afterFirstColonE_eq {l : List Char} (h : ':' ∈ l) :
    afterFirstColonE l = Except.ok (afterFirstColon l) := by
  induction l with
  | nil => simp at h
  | cons c cs ih =>
    rw [afterFirstColonE, afterFirstColon]
    by_cases hc : c = ':'
    · rw [if_pos hc, if_pos hc]
    · rw [if_neg hc, if_neg hc]
      refine ih ?_
      rcases List.mem_cons.mp h with h1 | h1
      · exact absurd h1.symm hc
      · exact h1

theorem mcqLineE_eq (st : MCQState) (l : List Char) :
    mcqLineE st l = Except.ok (mcqLine st l) := by
  simp only [mcqLineE, mcqLine]
  split_ifs with h1 h2 h3 h4 h5 <;> try rfl
  rw [colonTail1E_eq (colon_mem_of_label (by decide) h5)]
  rfl

theorem mcqFoldlME_eq (lines : List (List Char)) :
    ∀ st, lines.foldlM mcqLineE st = Except.ok (lines.foldl mcqLine st) := by
  induction lines with
  | nil => intro st; rfl
  | cons l ls ih =>
    intro st
    rw [List.foldlM_cons, mcqLineE_eq]
    show ls.foldlM mcqLineE (mcqLine st l) = _
    rw [ih, List.foldl_cons]

theorem except_ok_ite {P : Prop} [Decidable P] {α : Type} (x y : α) :
    (if P then (Except.ok x : Except Unit α) else Except.ok y)
      = Except.ok (if P then x else y) := by
  split_ifs <;> rfl

theorem parseMCQSegmentE_eq (seg : List Char) :
    parseMCQSegmentE seg = Except.ok (parseMCQSegment seg) := by
  simp only [parseMCQSegmentE, parseMCQSegment]
  by_cases hlen : (splitOnChar '\n' (pstrip seg)).length < 5
  · rw [if_pos hlen, if_pos hlen]
  · rw [if_neg hlen, if_neg hlen, mcqFoldlME_eq]
    generalize List.foldl mcqLine (⟨none, none, none, none, none⟩ : MCQState)
      ((splitOnChar '\n' (pstrip seg)).drop 1) = st
    obtain ⟨oa, ob, oc, od, oco⟩ := st
    cases oa <;> cases ob <;> cases oc <;> cases od <;> cases oco <;>
      first
        | rfl
        | exact except_ok_ite _ _

theorem parse_mcqsE_eq (text : List Char) :
    parse_mcqsE text = Except.ok (parse_mcqs text) := by
  rw [parse_mcqsE, parse_mcqs]
  generalize (reSplitQ text).drop 1 = segs
  suffices h : ∀ acc, segs.foldlM
      (fun acc seg => do
        let r ← parseMCQSegmentE seg
        match r with
        | some rcd => Except.ok (acc ++ [rcd])
        | none => Except.ok acc) acc
      = Except.ok (acc ++ segs.filterMap parseMCQSegment) by
    simpa using h []
  induction segs with
  | nil =>
    intro acc
    show Except.ok acc = Except.ok (acc ++ List.filterMap parseMCQSegment [])
    rw [List.filterMap_nil, List.append_nil]
  | cons s ss ih =>
    intro acc
    rw [List.foldlM_cons, parseMCQSegmentE_eq]
    cases hr : parseMCQSegment s with
    | none => exact (ih acc).trans (by rw [List.filterMap_cons, hr])
    | some rcd =>
      exact (ih (acc ++ [rcd])).trans (by rw [List.filterMap_cons, hr]; simp)

theorem qaFindAnswerE_eq (ls : List (List Char)) :
    qaFindAnswerE ls = Except.ok (qaFindAnswer ls) := by
  induction ls with
  | nil => rfl
  | cons l ls' ih =>
    rw [qaFindAnswerE, qaFindAnswer]
    by_cases h : ansLabel.isPrefixOf (plower (pstrip l))
    · rw [if_pos h, if_pos h]
      have hcol : ':' ∈ l :=
        mem_of_mem_pstrip (colon_mem_of_plower (colon_mem_of_label (by decide) h))
      rw [afterFirstColonE_eq hcol]
      rfl
    · rw [if_neg h, if_neg h, ih]

theorem parseQASegmentE_eq (seg : List Char) :
    parseQASegmentE seg = Except.ok (parseQASegment seg) := by
  simp only [parseQASegmentE, parseQASegment]
  by_cases hlen : (splitOnChar '\n' (pstrip seg)).length < 2
  · rw [if_pos hlen, if_pos hlen]
  · rw [if_neg hlen, if_neg hlen, qaFindAnswerE_eq]
    cases qaFindAnswer ((splitOnChar '\n' (pstrip seg)).drop 1) with
    | none => rfl
    | some a => exact except_ok_ite _ _

theorem parse_questionsE_eq (text : List Char) :
    parse_questionsE text = Except.ok (parse_questions text) := by
  rw [parse_questionsE, parse_questions]
  generalize (reSplitQ text).drop 1 = segs
  suffices h : ∀ acc, segs.foldlM
      (fun acc seg => do
        let r ← parseQASegmentE seg
        match r with
        | some rcd => Except.ok (acc ++ [rcd])
        | none => Except.ok acc) acc
      = Except.ok (acc ++ segs.filterMap parseQASegment) by
    simpa using h []
  induction segs with
  | nil =>
    intro acc
    show Except.ok acc = Except.ok (acc ++ List.filterMap parseQASegment [])
    rw [List.filterMap_nil, List.append_nil]
  | cons s ss ih =>
    intro acc
    rw [List.foldlM_cons, parseQASegmentE_eq]
    cases hr : parseQASegment s with
    | none => exact (ih acc).trans (by rw [List.filterMap_cons, hr])
    | some rcd =>
      exact (ih (acc ++ [rcd])).trans (by rw [List.filterMap_cons, hr]; simp)

theorem fibLineE_eq (st : FIBState) (l : List Char) :
    fibLineE st l = Except.ok (fibLine st l) := by
  simp only [fibLineE, fibLine]
  split_ifs with h1 h2 h3 h4 <;> try rfl
  · rw [afterFirstColonE_eq (colon_mem_of_plower (colon_mem_of_label (by decide) h3))]
    rfl
  · rw [afterFirstColonE_eq (colon_mem_of_plower (colon_mem_of_label (by decide) h4))]
    rfl

theorem parseFIBSegmentE_eq (seg : List Char) :
    parseFIBSegmentE seg = Except.ok (parseFIBSegment seg) := by
  simp only [parseFIBSegmentE, parseFIBSegment]
  by_cases hlen : (splitOnChar '\n' (pstrip seg)).length < 2
  · rw [if_pos hlen, if_pos hlen]
  · rw [if_neg hlen, if_neg hlen]
    have hfold : ∀ st, (splitOnChar '\n' (pstrip seg)).foldlM fibLineE st
        = Except.ok ((splitOnChar '\n' (pstrip seg)).foldl fibLine st) := by
      generalize splitOnChar '\n' (pstrip seg) = lines
      induction lines with
      | nil => intro st; rfl
      | cons l ls ih =>
        intro st
        rw [List.foldlM_cons, fibLineE_eq]
        show ls.foldlM fibLineE (fibLine st l) = _
        rw [ih, List.foldl_cons]
    rw [hfold]
    generalize List.foldl fibLine (⟨none, none, none⟩ : FIBState)
      (splitOnChar '\n' (pstrip seg)) = st
    obtain ⟨oq, oba, octx⟩ := st
    cases oq <;> cases oba <;>
      first
        | rfl
        | exact except_ok_ite _ _

theorem parse_fill_in_the_blanksE_eq (text : List Char) :
    parse_fill_in_the_blanksE text = Except.ok (parse_fill_in_the_blanks text) := by
  rw [parse_fill_in_the_blanksE, parse_fill_in_the_blanks]
  generalize (reSplitQ text).drop 1 = segs
  suffices h : ∀ acc, segs.foldlM
      (fun acc seg => do
        let r ← parseFIBSegmentE seg
        match r with
        | some rcd => Except.ok (acc ++ [rcd])
        | none => Except.ok acc) acc
      = Except.ok (acc ++ segs.filterMap parseFIBSegment) by
    simpa using h []
  induction segs with
  | nil =>
    intro acc
    show Except.ok acc = Except.ok (acc ++ List.filterMap parseFIBSegment [])
    rw [List.filterMap_nil, List.append_nil]
  | cons s ss ih =>
    intro acc
    rw [List.foldlM_cons, parseFIBSegmentE_eq]
    cases hr : parseFIBSegment s with
    | none => exact (ih acc).trans (by rw [List.filterMap_cons, hr])
    | some rcd =>
      exact (ih (acc ++ [rcd])).trans (by rw [List.filterMap_cons, hr]; simp)

/-! ### Parsing a completion consisting of a single marked block -/

theorem segsOne {ds body : List Char} (hds : ds ≠ [])
    (hdig : ∀ c ∈ ds, c.isDigit = true) (hb : splitFirst body = none) :
    (reSplitQ (renderOne ds body)).drop 1 = [body] := by
  have hsf : splitFirst (renderOne ds body) = some ([], body) :=
    splitFirst_of_qMarkerRest (qMarkerRest_eq_some_iff.mpr ⟨ds, hds, hdig, rfl⟩)
  rw [reSplitQ_of_some hsf, reSplitQ_of_none hb, List.drop_one, List.tail_cons]

theorem parse_mcqs_one {ds body : List Char} (hds : ds ≠ [])
    (hdig : ∀ c ∈ ds, c.isDigit = true) (hb : splitFirst body = none) :
    parse_mcqs (renderOne ds body) = (parseMCQSegment body).toList := by
  rw [parse_mcqs, segsOne hds hdig hb]
  cases h : parseMCQSegment body with
  | none => simp [List.filterMap_cons, h]
  | some r => simp [List.filterMap_cons, h]

theorem parse_questions_one {ds body : List Char} (hds : ds ≠ [])
    (hdig : ∀ c ∈ ds, c.isDigit = true) (hb : splitFirst body = none) :
    parse_questions (renderOne ds body) = (parseQASegment body).toList := by
  rw [parse_questions, segsOne hds hdig hb]
  cases h : parseQASegment body with
  | none => simp [List.filterMap_cons, h]
  | some r => simp [List.filterMap_cons, h]

theorem parse_fib_one {ds body : List Char} (hds : ds ≠ [])
    (hdig : ∀ c ∈ ds, c.isDigit = true) (hb : splitFirst body = none) :
    parse_fill_in_the_blanks (renderOne ds body) = (parseFIBSegment body).toList := by
  rw [parse_fill_in_the_blanks, segsOne hds hdig hb]
  cases h : parseFIBSegment body with
  | none => simp [List.filterMap_cons, h]
  | some r => simp [List.filterMap_cons, h]

theorem splitFirst_nlJoin {ls : List (List Char)}
    (h : ∀ l ∈ ls, splitFirst l = none) : splitFirst ('\n' :: joinLines ls) = none := by
  have h2 := splitFirst_append_nl (x := []) rfl (splitFirst_joinLines h)
  simpa using h2

theorem bool_neg {b : Bool} (h : b = false) : ¬ b = true := by simp [h]

/-! ### Line-level lemmas for `parse_fill_in_the_blanks` -/

theorem fibLine_q {x : List Char} (hx : pstrip x = x) (hxne : x ≠ [])
    (ba0 ctx0 : Option (List Char)) :
    fibLine ⟨none, ba0, ctx0⟩ x = ⟨some x, ba0, ctx0⟩ := by
  simp only [fibLine]
  rw [hx, if_neg hxne]
  rfl

theorem fibLine_ba {q0 : List Char} {ba0 ctx0 : Option (List Char)} {a : List Char}
    (ha : pstrip a = a) (hane : a ≠ []) :
    fibLine ⟨some q0, ba0, ctx0⟩ (baLine a) = ⟨some q0, some a, ctx0⟩ := by
  simp only [fibLine]
  have hps : pstrip (baLine a) = baLine a := by
    show pstrip (('B' :: "lank Answer: ".toList) ++ a) = baLine a
    rw [pstrip_prepend (c := 'B') rfl (pstrip_parts ha).2 hane]
    rfl
  rw [hps]
  have hpl : plower (baLine a) = baLabel ++ (' ' :: plower a) := by
    rw [baLine, plower, List.map_append]
    rfl
  rw [if_neg (show ¬ baLine a = [] from by simp [baLine])]
  rw [if_neg (show ¬ (⟨some q0, ba0, ctx0⟩ : FIBState).q = none from by simp)]
  rw [hpl, if_pos (isPrefixOf_append_self baLabel (' ' :: plower a))]
  rw [show afterFirstColon (baLine a) = ' ' :: a from rfl,
    pstrip_cons_pos (c := ' ') rfl, ha]

theorem fibLine_ba_empty {q0 : List Char} {ba0 ctx0 : Option (List Char)} :
    fibLine ⟨some q0, ba0, ctx0⟩ "Blank Answer:".toList = ⟨some q0, some [], ctx0⟩ :=
  rfl

theorem fibLine_ctx {q0 : List Char} {ba0 ctx0 : Option (List Char)} {c : List Char}
    (hc : pstrip c = c) (hcne : c ≠ []) :
    fibLine ⟨some q0, ba0, ctx0⟩ (ctxLine c) = ⟨some q0, ba0, some c⟩ := by
  simp only [fibLine]
  have hps : pstrip (ctxLine c) = ctxLine c := by
    show pstrip (('C' :: "ontext: ".toList) ++ c) = ctxLine c
    rw [pstrip_prepend (c := 'C') rfl (pstrip_parts hc).2 hcne]
    rfl
  rw [hps]
  have hpl : plower (ctxLine c) = ctxLabel ++ (' ' :: plower c) := by
    rw [ctxLine, plower, List.map_append]
    rfl
  have hba : baLabel.isPrefixOf (plower (ctxLine c)) = false := by
    rw [hpl]
    exact isPrefixOf_cons_ne (by decide)
  rw [if_neg (show ¬ ctxLine c = [] from by simp [ctxLine])]
  rw [if_neg (show ¬ (⟨some q0, ba0, ctx0⟩ : FIBState).q = none from by simp)]
  rw [if_neg (bool_neg hba)]
  rw [hpl, if_pos (isPrefixOf_append_self ctxLabel (' ' :: plower c))]
  rw [show afterFirstColon (ctxLine c) = ' ' :: c from rfl,
    pstrip_cons_pos (c := ' ') rfl, hc]

theorem fibLine_lcba {q0 : List Char} {ba0 ctx0 : Option (List Char)} {a : List Char}
    (ha : pstrip a = a) (hane : a ≠ []) :
    fibLine ⟨some q0, ba0, ctx0⟩ (lcBaLine a) = ⟨some q0, some a, ctx0⟩ := by
  simp only [fibLine]
  have hps : pstrip (lcBaLine a) = lcBaLine a := by
    show pstrip (('b' :: "lank answer: ".toList) ++ a) = lcBaLine a
    rw [pstrip_prepend (c := 'b') rfl (pstrip_parts ha).2 hane]
    rfl
  rw [hps]
  have hpl : plower (lcBaLine a) = baLabel ++ (' ' :: plower a) := by
    rw [lcBaLine, plower, List.map_append]
    rfl
  rw [if_neg (show ¬ lcBaLine a = [] from by simp [lcBaLine])]
  rw [if_neg (show ¬ (⟨some q0, ba0, ctx0⟩ : FIBState).q = none from by simp)]
  rw [hpl, if_pos (isPrefixOf_append_self baLabel (' ' :: plower a))]
  rw [show afterFirstColon (lcBaLine a) = ' ' :: a from rfl,
    pstrip_cons_pos (c := ' ') rfl, ha]

theorem fibLine_lcctx {q0 : List Char} {ba0 ctx0 : Option (List Char)} {c : List Char}
    (hc : pstrip c = c) (hcne : c ≠ []) :
    fibLine ⟨some q0, ba0, ctx0⟩ (lcCtxLine c) = ⟨some q0, ba0, some c⟩ := by
  simp only [fibLine]
  have hps : pstrip (lcCtxLine c) = lcCtxLine c := by
    show pstrip (('c' :: "ontext: ".toList) ++ c) = lcCtxLine c
    rw [pstrip_prepend (c := 'c') rfl (pstrip_parts hc).2 hcne]
    rfl
  rw [hps]
  have hpl : plower (lcCtxLine c) = ctxLabel ++ (' ' :: plower c) := by
    rw [lcCtxLine, plower, List.map_append]
    rfl
  have hba : baLabel.isPrefixOf (plower (lcCtxLine c)) = false := by
    rw [hpl]
    exact isPrefixOf_cons_ne (by decide)
  rw [if_neg (show ¬ lcCtxLine c = [] from by simp [lcCtxLine])]
  rw [if_neg (show ¬ (⟨some q0, ba0, ctx0⟩ : FIBState).q = none from by simp)]
  rw [if_neg (bool_neg hba)]
  rw [hpl, if_pos (isPrefixOf_append_self ctxLabel (' ' :: plower c))]
  rw [show afterFirstColon (lcCtxLine c) = ' ' :: c from rfl,
    pstrip_cons_pos (c := ' ') rfl, hc]

/-! ### Segment-level evaluation for rendered QA / fill-in-blank / variant MCQ bodies -/

theorem nl_not_mem_append {u v : List Char} (hu : '\n' ∉ u) (hv : '\n' ∉ v) :
    '\n' ∉ u ++ v := by
  intro hm
  rcases List.mem_append.mp hm with h | h
  · exact hu h
  · exact hv h

theorem pstrip_baLine {a : List Char} (ha : pstrip a = a) (hane : a ≠ []) :
    pstrip (baLine a) = baLine a := by
  show pstrip (('B' :: "lank Answer: ".toList) ++ a) = baLine a
  rw [pstrip_prepend (c := 'B') rfl (pstrip_parts ha).2 hane]
  rfl

theorem pstrip_ctxLine {c : List Char} (hc : pstrip c = c) (hcne : c ≠ []) :
    pstrip (ctxLine c) = ctxLine c := by
  show pstrip (('C' :: "ontext: ".toList) ++ c) = ctxLine c
  rw [pstrip_prepend (c := 'C') rfl (pstrip_parts hc).2 hcne]
  rfl

theorem pstrip_lcBaLine {a : List Char} (ha : pstrip a = a) (hane : a ≠ []) :
    pstrip (lcBaLine a) = lcBaLine a := by
  show pstrip (('b' :: "lank answer: ".toList) ++ a) = lcBaLine a
  rw [pstrip_prepend (c := 'b') rfl (pstrip_parts ha).2 hane]
  rfl

theorem pstrip_lcCtxLine {c : List Char} (hc : pstrip c = c) (hcne : c ≠ []) :
    pstrip (lcCtxLine c) = lcCtxLine c := by
  show pstrip (('c' :: "ontext: ".toList) ++ c) = lcCtxLine c
  rw [pstrip_prepend (c := 'c') rfl (pstrip_parts hc).2 hcne]
  rfl

theorem pstrip_qaAnsLine {a : List Char} (ha : pstrip a = a) (hane : a ≠ []) :
    pstrip (qaAnsLine a) = qaAnsLine a := by
  show pstrip (('a' :: "nswer: ".toList) ++ a) = qaAnsLine a
  rw [pstrip_prepend (c := 'a') rfl (pstrip_parts ha).2 hane]
  rfl

theorem pstrip_lcCaLine {x : List Char} (hx : pstrip x = x) (hxne : x ≠ []) :
    pstrip (lcCaLine x) = lcCaLine x := by
  show pstrip (('c' :: "orrect answer: ".toList) ++ x) = lcCaLine x
  rw [pstrip_prepend (c := 'c') rfl (pstrip_parts hx).2 hxne]
  rfl

/-- `mcqLine` ignores a lower-case `correct answer:` line: the label match
is case-sensitive. -/
theorem mcqLine_lcca {st : MCQState} {x : List Char} (hx : pstrip x = x)
    (hxne : x ≠ []) : mcqLine st (lcCaLine x) = st := by
  simp only [mcqLine]
  rw [pstrip_lcCaLine hx hxne]
  rw [show lcCaLine x = 'c' :: ("orrect answer: ".toList ++ x) from rfl]
  rw [show caLabel = 'C' :: "orrect Answer:".toList from rfl]
  rw [if_neg (bool_neg (isPrefixOf_cons_ne (show ('A' : Char) ≠ 'c' by decide)))]
  rw [if_neg (bool_neg (isPrefixOf_cons_ne (show ('B' : Char) ≠ 'c' by decide)))]
  rw [if_neg (bool_neg (isPrefixOf_cons_ne (show ('C' : Char) ≠ 'c' by decide)))]
  rw [if_neg (bool_neg (isPrefixOf_cons_ne (show ('D' : Char) ≠ 'c' by decide)))]
  rw [if_neg (bool_neg (isPrefixOf_cons_ne (show ('C' : Char) ≠ 'c' by decide)))]

/-- `mcqLine` ignores a lower-case `a)` option line: the prefix match is
case-sensitive. -/
theorem mcqLine_lcopt {st : MCQState} {x : List Char} (hx : pstrip x = x) :
    mcqLine st (optLine 'a' x) = st := by
  simp only [mcqLine]
  rw [pstrip_optLine (L := 'a') rfl hx]
  by_cases hxe : x = []
  · subst hxe
    rw [if_pos rfl]
    rfl
  · rw [if_neg hxe]
    rw [show optLine 'a' x = 'a' :: (')' :: ' ' :: x) from rfl]
    rw [show caLabel = 'C' :: "orrect Answer:".toList from rfl]
    rw [if_neg (bool_neg (isPrefixOf_cons_ne (show ('A' : Char) ≠ 'a' by decide)))]
    rw [if_neg (bool_neg (isPrefixOf_cons_ne (show ('B' : Char) ≠ 'a' by decide)))]
    rw [if_neg (bool_neg (isPrefixOf_cons_ne (show ('C' : Char) ≠ 'a' by decide)))]
    rw [if_neg (bool_neg (isPrefixOf_cons_ne (show ('D' : Char) ≠ 'a' by decide)))]
    rw [if_neg (bool_neg (isPrefixOf_cons_ne (show ('C' : Char) ≠ 'a' by decide)))]

/-- Strip-then-line-split evaluation of a rendered body. -/
theorem splitOnChar_pstrip_body {q : List Char} {rest : List (List Char)}
    (hq : pstrip q = q) (hqne : q ≠ [])
    (hlast : rstrip ((q :: rest).getLastD []) = (q :: rest).getLastD [])
    (hlastne : (q :: rest).getLastD [] ≠ [])
    (hnl : ∀ l ∈ q :: rest, '\n' ∉ l) :
    splitOnChar '\n' (pstrip ('\n' :: joinLines (q :: rest))) = q :: rest := by
  rw [pstrip_cons_pos (c := '\n') rfl]
  rw [pstrip_joinLines (pstrip_parts hq).1 hqne hlast hlastne]
  exact splitOnChar_nl_joinLines (by simp) hnl

theorem parseFIBSegment_ba {q a : List Char}
    (hq : pstrip q = q) (hqne : q ≠ []) (hqn : '\n' ∉ q)
    (ha : pstrip a = a) (hane : a ≠ []) (han : '\n' ∉ a) :
    parseFIBSegment (twoLineBody q (baLine a)) = some ⟨q, a, none⟩ := by
  have hlines : splitOnChar '\n' (pstrip (twoLineBody q (baLine a))) = [q, baLine a] := by
    rw [twoLineBody]
    apply splitOnChar_pstrip_body hq hqne
    · exact (pstrip_parts (pstrip_baLine ha hane)).2
    · show baLine a ≠ []
      simp [baLine]
    · intro l hl
      rcases List.mem_cons.mp hl with rfl | hl
      · exact hqn
      rcases List.mem_cons.mp hl with rfl | hl
      · exact nl_not_mem_append (by decide) han
      · simp at hl
  simp only [parseFIBSegment, hlines]
  rw [if_neg (by simp)]
  rw [List.foldl_cons, fibLine_q hq hqne, List.foldl_cons, fibLine_ba ha hane,
    List.foldl_nil]
  show (if q ≠ [] ∧ a ≠ [] then some (⟨q, a, none⟩ : FIBRecord) else none)
    = some ⟨q, a, none⟩
  rw [if_pos ⟨hqne, hane⟩]

theorem parseFIBSegment_ba_empty {q : List Char}
    (hq : pstrip q = q) (hqne : q ≠ []) (hqn : '\n' ∉ q) :
    parseFIBSegment (twoLineBody q "Blank Answer:".toList) = none := by
  have hlines : splitOnChar '\n' (pstrip (twoLineBody q "Blank Answer:".toList))
      = [q, "Blank Answer:".toList] := by
    rw [twoLineBody]
    apply splitOnChar_pstrip_body hq hqne
    · rfl
    · show "Blank Answer:".toList ≠ []
      decide
    · intro l hl
      rcases List.mem_cons.mp hl with rfl | hl
      · exact hqn
      rcases List.mem_cons.mp hl with rfl | hl
      · decide
      · simp at hl
  simp only [parseFIBSegment, hlines]
  rw [if_neg (by simp)]
  rw [List.foldl_cons, fibLine_q hq hqne, List.foldl_cons, fibLine_ba_empty,
    List.foldl_nil]
  show (if q ≠ [] ∧ ([] : List Char) ≠ [] then some (⟨q, [], none⟩ : FIBRecord)
    else none) = none
  rw [if_neg (by simp)]

theorem parseFIBSegment_ctx_only {q c : List Char}
    (hq : pstrip q = q) (hqne : q ≠ []) (hqn : '\n' ∉ q)
    (hc : pstrip c = c) (hcne : c ≠ []) (hcn : '\n' ∉ c) :
    parseFIBSegment (twoLineBody q (ctxLine c)) = none := by
  have hlines : splitOnChar '\n' (pstrip (twoLineBody q (ctxLine c))) = [q, ctxLine c] := by
    rw [twoLineBody]
    apply splitOnChar_pstrip_body hq hqne
    · exact (pstrip_parts (pstrip_ctxLine hc hcne)).2
    · show ctxLine c ≠ []
      simp [ctxLine]
    · intro l hl
      rcases List.mem_cons.mp hl with rfl | hl
      · exact hqn
      rcases List.mem_cons.mp hl with rfl | hl
      · exact nl_not_mem_append (by decide) hcn
      · simp at hl
  simp only [parseFIBSegment, hlines]
  rw [if_neg (by simp)]
  rw [List.foldl_cons, fibLine_q hq hqne, List.foldl_cons, fibLine_ctx hc hcne,
    List.foldl_nil]

theorem parseFIBSegment_lc {q a c : List Char}
    (hq : pstrip q = q) (hqne : q ≠ []) (hqn : '\n' ∉ q)
    (ha : pstrip a = a) (hane : a ≠ []) (han : '\n' ∉ a)
    (hc : pstrip c = c) (hcne : c ≠ []) (hcn : '\n' ∉ c) :
    parseFIBSegment (threeLineBody q (lcBaLine a) (lcCtxLine c))
      = some ⟨q, a, some c⟩ := by
  have hlines : splitOnChar '\n' (pstrip (threeLineBody q (lcBaLine a) (lcCtxLine c)))
      = [q, lcBaLine a, lcCtxLine c] := by
    rw [threeLineBody]
    apply splitOnChar_pstrip_body hq hqne
    · exact (pstrip_parts (pstrip_lcCtxLine hc hcne)).2
    · show lcCtxLine c ≠ []
      simp [lcCtxLine]
    · intro l hl
      rcases List.mem_cons.mp hl with rfl | hl
      · exact hqn
      rcases List.mem_cons.mp hl with rfl | hl
      · exact nl_not_mem_append (by decide) han
      rcases List.mem_cons.mp hl with rfl | hl
      · exact nl_not_mem_append (by decide) hcn
      · simp at hl
  simp only [parseFIBSegment, hlines]
  rw [if_neg (by simp)]
  rw [List.foldl_cons, fibLine_q hq hqne, List.foldl_cons, fibLine_lcba ha hane,
    List.foldl_cons, fibLine_lcctx hc hcne, List.foldl_nil]
  show (if q ≠ [] ∧ a ≠ [] then some (⟨q, a, some c⟩ : FIBRecord) else none)
    = some ⟨q, a, some c⟩
  rw [if_pos ⟨hqne, hane⟩]

theorem qaFindAnswer_line {a : List Char} (rest : List (List Char))
    (ha : pstrip a = a) (hane : a ≠ []) :
    qaFindAnswer (qaAnsLine a :: rest) = some a := by
  rw [qaFindAnswer, pstrip_qaAnsLine ha hane]
  have hpl : plower (qaAnsLine a) = ansLabel ++ (' ' :: plower a) := by
    rw [qaAnsLine, plower, List.map_append]
    rfl
  rw [hpl, if_pos (isPrefixOf_append_self ansLabel (' ' :: plower a))]
  rw [show afterFirstColon (qaAnsLine a) = ' ' :: a from rfl,
    pstrip_cons_pos (c := ' ') rfl, ha]

theorem parseQASegment_std {q a : List Char}
    (hq : pstrip q = q) (hqne : q ≠ []) (hqn : '\n' ∉ q)
    (ha : pstrip a = a) (hane : a ≠ []) (han : '\n' ∉ a) :
    parseQASegment (twoLineBody q (qaAnsLine a)) = some ⟨q, a⟩ := by
  have hlines : splitOnChar '\n' (pstrip (twoLineBody q (qaAnsLine a)))
      = [q, qaAnsLine a] := by
    rw [twoLineBody]
    apply splitOnChar_pstrip_body hq hqne
    · exact (pstrip_parts (pstrip_qaAnsLine ha hane)).2
    · show qaAnsLine a ≠ []
      simp [qaAnsLine]
    · intro l hl
      rcases List.mem_cons.mp hl with rfl | hl
      · exact hqn
      rcases List.mem_cons.mp hl with rfl | hl
      · exact nl_not_mem_append (by decide) han
      · simp at hl
  simp only [parseQASegment, hlines]
  rw [if_neg (by simp)]
  rw [show ([q, qaAnsLine a].drop 1) = [qaAnsLine a] from rfl]
  rw [qaFindAnswer_line [] ha hane]
  rw [show ([q, qaAnsLine a].headD []) = q from rfl, hq]
  show (if q ≠ [] ∧ a ≠ [] then some (⟨q, a⟩ : QARecord) else none) = some ⟨q, a⟩
  rw [if_pos ⟨hqne, hane⟩]

theorem parseMCQSegment_threeOpt {q a b c ans : List Char}
    (hq : pstrip q = q) (hqne : q ≠ []) (hqn : '\n' ∉ q)
    (ha : pstrip a = a) (han : '\n' ∉ a)
    (hb : pstrip b = b) (hbn : '\n' ∉ b)
    (hc : pstrip c = c) (hcn : '\n' ∉ c)
    (hans : pstrip ans = ans) (hansne : ans ≠ []) (hansn : '\n' ∉ ans)
    (hanc : ':' ∉ ans) :
    parseMCQSegment (threeOptBody q a b c ans) = none := by
  have hlines : splitOnChar '\n' (pstrip (threeOptBody q a b c ans))
      = [q, optLine 'A' a, optLine 'B' b, optLine 'C' c, caLine ans] := by
    rw [threeOptBody]
    apply splitOnChar_pstrip_body hq hqne
    · exact (pstrip_parts (pstrip_caLine hans hansne)).2
    · show caLine ans ≠ []
      simp [caLine, caLabel]
    · intro l hl
      rcases List.mem_cons.mp hl with rfl | hl
      · exact hqn
      rcases List.mem_cons.mp hl with rfl | hl
      · exact nl_not_mem_optLine (by decide) han
      rcases List.mem_cons.mp hl with rfl | hl
      · exact nl_not_mem_optLine (by decide) hbn
      rcases List.mem_cons.mp hl with rfl | hl
      · exact nl_not_mem_optLine (by decide) hcn
      rcases List.mem_cons.mp hl with rfl | hl
      · exact nl_not_mem_caLine hansn
      · simp at hl
  simp only [parseMCQSegment, hlines]
  rw [if_neg (by simp)]
  rw [show ([q, optLine 'A' a, optLine 'B' b, optLine 'C' c, caLine ans].drop 1)
        = [optLine 'A' a, optLine 'B' b, optLine 'C' c, caLine ans] from rfl]
  rw [List.foldl_cons, mcqLine_A ha, List.foldl_cons, mcqLine_B hb,
    List.foldl_cons, mcqLine_C hc, List.foldl_cons, mcqLine_ca hans hansne hanc,
    List.foldl_nil]

theorem parseMCQSegment_lcans {q a b c d ans : List Char}
    (hq : pstrip q = q) (hqne : q ≠ []) (hqn : '\n' ∉ q)
    (ha : pstrip a = a) (han : '\n' ∉ a)
    (hb : pstrip b = b) (hbn : '\n' ∉ b)
    (hc : pstrip c = c) (hcn : '\n' ∉ c)
    (hd : pstrip d = d) (hdn : '\n' ∉ d)
    (hans : pstrip ans = ans) (hansne : ans ≠ []) (hansn : '\n' ∉ ans) :
    parseMCQSegment (mcqBodyLCAns q a b c d ans) = none := by
  have hlines : splitOnChar '\n' (pstrip (mcqBodyLCAns q a b c d ans))
      = [q, optLine 'A' a, optLine 'B' b, optLine 'C' c, optLine 'D' d,
         lcCaLine ans] := by
    rw [mcqBodyLCAns]
    apply splitOnChar_pstrip_body hq hqne
    · exact (pstrip_parts (pstrip_lcCaLine hans hansne)).2
    · show lcCaLine ans ≠ []
      simp [lcCaLine]
    · intro l hl
      rcases List.mem_cons.mp hl with rfl | hl
      · exact hqn
      rcases List.mem_cons.mp hl with rfl | hl
      · exact nl_not_mem_optLine (by decide) han
      rcases List.mem_cons.mp hl with rfl | hl
      · exact nl_not_mem_optLine (by decide) hbn
      rcases List.mem_cons.mp hl with rfl | hl
      · exact nl_not_mem_optLine (by decide) hcn
      rcases List.mem_cons.mp hl with rfl | hl
      · exact nl_not_mem_optLine (by decide) hdn
      rcases List.mem_cons.mp hl with rfl | hl
      · exact nl_not_mem_append (by decide) hansn
      · simp at hl
  simp only [parseMCQSegment, hlines]
  rw [if_neg (by simp)]
  rw [show ([q, optLine 'A' a, optLine 'B' b, optLine 'C' c, optLine 'D' d,
        lcCaLine ans].drop 1)
        = [optLine 'A' a, optLine 'B' b, optLine 'C' c, optLine 'D' d,
           lcCaLine ans] from rfl]
  rw [List.foldl_cons, mcqLine_A ha, List.foldl_cons, mcqLine_B hb,
    List.foldl_cons, mcqLine_C hc, List.foldl_cons, mcqLine_D hd,
    List.foldl_cons, mcqLine_lcca hans hansne, List.foldl_nil]

theorem parseMCQSegment_lcopt {q a b c d ans : List Char}
    (hq : pstrip q = q) (hqne : q ≠ []) (hqn : '\n' ∉ q)
    (ha : pstrip a = a) (han : '\n' ∉ a)
    (hb : pstrip b = b) (hbn : '\n' ∉ b)
    (hc : pstrip c = c) (hcn : '\n' ∉ c)
    (hd : pstrip d = d) (hdn : '\n' ∉ d)
    (hans : pstrip ans = ans) (hansne : ans ≠ []) (hansn : '\n' ∉ ans)
    (hanc : ':' ∉ ans) :
    parseMCQSegment (mcqBodyLCOpt q a b c d ans) = none := by
  have hlines : splitOnChar '\n' (pstrip (mcqBodyLCOpt q a b c d ans))
      = [q, optLine 'a' a, optLine 'B' b, optLine 'C' c, optLine 'D' d,
         caLine ans] := by
    rw [mcqBodyLCOpt]
    apply splitOnChar_pstrip_body hq hqne
    · exact (pstrip_parts (pstrip_caLine hans hansne)).2
    · show caLine ans ≠ []
      simp [caLine, caLabel]
    · intro l hl
      rcases List.mem_cons.mp hl with rfl | hl
      · exact hqn
      rcases List.mem_cons.mp hl with rfl | hl
      · exact nl_not_mem_optLine (by decide) han
      rcases List.mem_cons.mp hl with rfl | hl
      · exact nl_not_mem_optLine (by decide) hbn
      rcases List.mem_cons.mp hl with rfl | hl
      · exact nl_not_mem_optLine (by decide) hcn
      rcases List.mem_cons.mp hl with rfl | hl
      · exact nl_not_mem_optLine (by decide) hdn
      rcases List.mem_cons.mp hl with rfl | hl
      · exact nl_not_mem_caLine hansn
      · simp at hl
  simp only [parseMCQSegment, hlines]
  rw [if_neg (by simp)]
  rw [show ([q, optLine 'a' a, optLine 'B' b, optLine 'C' c, optLine 'D' d,
        caLine ans].drop 1)
        = [optLine 'a' a, optLine 'B' b, optLine 'C' c, optLine 'D' d,
           caLine ans] from rfl]
  rw [List.foldl_cons, mcqLine_lcopt ha, List.foldl_cons, mcqLine_B hb,
    List.foldl_cons, mcqLine_C hc, List.foldl_cons, mcqLine_D hd,
    List.foldl_cons, mcqLine_ca hans hansne hanc, List.foldl_nil]

/-! ### The last piece of a split equals the text after the last separator -/

theorem takeWhile_append_all {p : Char → Bool} {a : List Char}
    (h : ∀ x ∈ a, p x = true) (b : List Char) :
    (a ++ b).takeWhile p = a ++ b.takeWhile p := by
  induction a with
  | nil => rfl
  | cons e es ih =>
    rw [List.cons_append, List.takeWhile_cons, if_pos (h e (List.mem_cons_self e es)),
      ih (fun x hx => h x (List.mem_cons_of_mem e hx)), List.cons_append]

theorem takeWhile_append_stop {p : Char → Bool} {x : Char} (hx : p x = false)
    (a b : List Char) : (a ++ x :: b).takeWhile p = a.takeWhile p := by
  induction a with
  | nil => simp [List.takeWhile_cons, hx]
  | cons e es ih =>
    rw [List.cons_append, List.takeWhile_cons, List.takeWhile_cons]
    by_cases he : p e
    · rw [if_pos he, if_pos he, ih]
    · rw [if_neg he, if_neg he]

theorem getLastD_irrel {α : Type} {ps : List α} (h : ps ≠ []) (d1 d2 : α) :
    ps.getLastD d1 = ps.getLastD d2 := by
  cases ps with
  | nil => exact absurd rfl h
  | cons p ps' => rw [List.getLastD_cons, List.getLastD_cons]

/-- The last piece of `splitOnChar c l` is the text after the last
occurrence of `c` (the whole of `l` when `c` does not occur). -/
theorem splitOnChar_getLastD (c : Char) (l : List Char) :
    (splitOnChar c l).getLastD [] = (l.reverse.takeWhile (fun x => x != c)).reverse := by
  induction l with
  | nil => rfl
  | cons d ds ih =>
    by_cases hd : d = c
    · subst hd
      rw [splitOnChar, if_pos rfl]
      have hne := splitOnChar_ne_nil d ds
      rw [List.getLastD_cons]
      rw [getLastD_irrel hne [] ([] : List Char)]
      rw [ih]
      rw [List.reverse_cons]
      rw [takeWhile_append_stop (by simp) ds.reverse []]
    · rw [splitOnChar, if_neg hd]
      cases hs : splitOnChar c ds with
      | nil => exact absurd hs (splitOnChar_ne_nil c ds)
      | cons p ps =>
        cases ps with
        | nil =>
          have hnm : c ∉ ds := by
            intro hmem
            have h2 := splitOnChar_length_two hmem
            rw [hs] at h2
            simp at h2
          have hp : p = ds := by
            have h2 := splitOnChar_of_not_mem hnm
            rw [hs] at h2
            injection h2
          rw [hp]
          have hall : ∀ x ∈ ds.reverse, (x != c) = true := by
            intro x hx
            have hxm : x ∈ ds := List.mem_reverse.mp hx
            simp only [bne_iff_ne, ne_eq]
            intro hxc
            exact hnm (hxc ▸ hxm)
          rw [List.reverse_cons, takeWhile_append_all hall [d]]
          rw [show List.takeWhile (fun x => x != c) [d] = [d] from by
            simp [List.takeWhile_cons, hd]]
          rw [List.reverse_append, List.reverse_reverse]
          rfl
        | cons p2 ps2 =>
          have hc2 : c ∈ ds := by
            by_contra hnm
            have h2 := splitOnChar_of_not_mem hnm
            rw [hs] at h2
            injection h2 with h3 h4
            cases h4
          obtain ⟨s, t, hst⟩ := List.append_of_mem hc2
          have hsrev : ds.reverse = t.reverse ++ c :: s.reverse := by
            rw [hst]
            simp
          have hLHS : ((d :: p) :: p2 :: ps2).getLastD [] = (splitOnChar c ds).getLastD [] := by
            rw [hs]
            simp [List.getLastD_cons]
          rw [hLHS, ih]
          rw [List.reverse_cons, hsrev]
          rw [show (t.reverse ++ c :: s.reverse) ++ [d]
                = t.reverse ++ c :: (s.reverse ++ [d]) from by simp]
          rw [takeWhile_append_stop (by simp) t.reverse (s.reverse ++ [d])]
          rw [takeWhile_append_stop (by simp) t.reverse s.reverse]

theorem pstrip_line_colon {c : Char} {t x y : List Char} (hc : isSpaceChar c = false)
    (hy : pstrip y = y) :
    pstrip ((c :: t) ++ (x ++ ':' :: y)) = (c :: t) ++ (x ++ ':' :: y) := by
  apply pstrip_eq_self
  · rw [List.cons_append]
    exact lstrip_cons_neg hc _
  · by_cases hye : y = []
    · subst hye
      rw [show (c :: t) ++ (x ++ ':' :: []) = ((c :: t) ++ x) ++ [':'] from by simp]
      rw [rstrip_append (y := [':']) (by decide) ((c :: t) ++ x)]
      rfl
    · have hr : rstrip y = y := (pstrip_parts hy).2
      rw [show (c :: t) ++ (x ++ ':' :: y) = ((c :: t) ++ x ++ [':']) ++ y from by simp]
      rw [rstrip_append (by rw [hr]; exact hye) ((c :: t) ++ x ++ [':']), hr]

/-! ### The claims -/

/-- **C2** (amended).  For a line starting with `Answer:`, `Blank Answer:`
or `Context:`, the extracted value is the whole remainder of the line after
the first colon (stripped), so extra colons are preserved — these three use
Python's `split(':', 1)`.  For a line starting with `Correct Answer:` in
`parse_mcqs`, however, the code uses `split(':')[1]`, so the stored value
is only the text *between the first and second colons*: with the line
`Correct Answer:<x>:<y>` (no colon in `<x>`), `correct_answer` becomes
`strip(<x>)`, not the whole remainder. -/
theorem claim2_colon_splitting (x y : List Char) (hx : ':' ∉ x) (hy : pstrip y = y) :
    (∀ st : MCQState, mcqLine st (caLabel ++ (x ++ ':' :: y))
        = { st with correct := some (pstrip x) }) ∧
    (∀ rest, qaFindAnswer (("Answer:".toList ++ (x ++ ':' :: y)) :: rest)
        = some (pstrip (x ++ ':' :: y))) ∧
    (∀ q0 ba0 ctx0, fibLine ⟨some q0, ba0, ctx0⟩ ("Blank Answer:".toList ++ (x ++ ':' :: y))
        = ⟨some q0, some (pstrip (x ++ ':' :: y)), ctx0⟩) ∧
    (∀ q0 ba0 ctx0, fibLine ⟨some q0, ba0, ctx0⟩ ("Context:".toList ++ (x ++ ':' :: y))
        = ⟨some q0, ba0, some (pstrip (x ++ ':' :: y))⟩) := by
  refine ⟨?_, ?_, ?_, ?_⟩
  · intro st
    simp only [mcqLine]
    have hca : pstrip (caLabel ++ (x ++ ':' :: y)) = caLabel ++ (x ++ ':' :: y) := by
      show pstrip (('C' :: "orrect Answer:".toList) ++ (x ++ ':' :: y))
        = ('C' :: "orrect Answer:".toList) ++ (x ++ ':' :: y)
      exact pstrip_line_colon (c := 'C') rfl hy
    rw [hca]
    rw [show caLabel ++ (x ++ ':' :: y)
        = 'C' :: 'o' :: ("rrect Answer:".toList ++ (x ++ ':' :: y)) from rfl]
    rw [if_neg (bool_neg (isPrefixOf_cons_ne (show ('A' : Char) ≠ 'C' by decide)))]
    rw [if_neg (bool_neg (isPrefixOf_cons_ne (show ('B' : Char) ≠ 'C' by decide)))]
    rw [if_neg (bool_neg (isPrefixOf_cons_cons_ne
      (Or.inr (show (')' : Char) ≠ 'o' by decide))))]
    rw [if_neg (bool_neg (isPrefixOf_cons_ne (show ('D' : Char) ≠ 'C' by decide)))]
    rw [if_pos (show caLabel.isPrefixOf
        ('C' :: 'o' :: ("rrect Answer:".toList ++ (x ++ ':' :: y))) = true from
      isPrefixOf_append_self caLabel (x ++ ':' :: y))]
    have hct : colonTail1 ('C' :: 'o' :: ("rrect Answer:".toList ++ (x ++ ':' :: y))) = x := by
      have hs1 : splitOnChar ':' ("Correct Answer".toList ++ ':' :: (x ++ ':' :: y))
          = "Correct Answer".toList :: x :: splitOnChar ':' y := by
        rw [splitOnChar_append_cons _ (by decide)]
        rw [splitOnChar_append_cons _ hx]
      show colonTail1 ("Correct Answer".toList ++ ':' :: (x ++ ':' :: y)) = x
      simp only [colonTail1, hs1]
    rw [hct]
  · intro rest
    rw [qaFindAnswer]
    have hqa : pstrip ("Answer:".toList ++ (x ++ ':' :: y))
        = "Answer:".toList ++ (x ++ ':' :: y) := by
      show pstrip (('A' :: "nswer:".toList) ++ (x ++ ':' :: y))
        = ('A' :: "nswer:".toList) ++ (x ++ ':' :: y)
      exact pstrip_line_colon (c := 'A') rfl hy
    rw [hqa]
    have hpl : plower ("Answer:".toList ++ (x ++ ':' :: y))
        = ansLabel ++ plower (x ++ ':' :: y) := by
      rw [plower, List.map_append]
      rfl
    rw [hpl, if_pos (isPrefixOf_append_self ansLabel (plower (x ++ ':' :: y)))]
    rw [show afterFirstColon ("Answer:".toList ++ (x ++ ':' :: y))
        = x ++ ':' :: y from rfl]
  · intro q0 ba0 ctx0
    simp only [fibLine]
    have hba : pstrip ("Blank Answer:".toList ++ (x ++ ':' :: y))
        = "Blank Answer:".toList ++ (x ++ ':' :: y) := by
      show pstrip (('B' :: "lank Answer:".toList) ++ (x ++ ':' :: y))
        = ('B' :: "lank Answer:".toList) ++ (x ++ ':' :: y)
      exact pstrip_line_colon (c := 'B') rfl hy
    rw [hba]
    have hpl : plower ("Blank Answer:".toList ++ (x ++ ':' :: y))
        = baLabel ++ plower (x ++ ':' :: y) := by
      rw [plower, List.map_append]
      rfl
    rw [if_neg (show ¬ "Blank Answer:".toList ++ (x ++ ':' :: y) = [] from by simp)]
    rw [if_neg (show ¬ (⟨some q0, ba0, ctx0⟩ : FIBState).q = none from by simp)]
    rw [hpl, if_pos (isPrefixOf_append_self baLabel (plower (x ++ ':' :: y)))]
    rw [show afterFirstColon ("Blank Answer:".toList ++ (x ++ ':' :: y))
        = x ++ ':' :: y from rfl]
  · intro q0 ba0 ctx0
    simp only [fibLine]
    have hctx : pstrip ("Context:".toList ++ (x ++ ':' :: y))
        = "Context:".toList ++ (x ++ ':' :: y) := by
      show pstrip (('C' :: "ontext:".toList) ++ (x ++ ':' :: y))
        = ('C' :: "ontext:".toList) ++ (x ++ ':' :: y)
      exact pstrip_line_colon (c := 'C') rfl hy
    rw [hctx]
    have hpl : plower ("Context:".toList ++ (x ++ ':' :: y))
        = ctxLabel ++ plower (x ++ ':' :: y) := by
      rw [plower, List.map_append]
      rfl
    have hban : baLabel.isPrefixOf (plower ("Context:".toList ++ (x ++ ':' :: y)))
        = false := by
      rw [hpl]
      exact isPrefixOf_cons_ne (by decide)
    rw [if_neg (show ¬ "Context:".toList ++ (x ++ ':' :: y) = [] from by simp)]
    rw [if_neg (show ¬ (⟨some q0, ba0, ctx0⟩ : FIBState).q = none from by simp)]
    rw [if_neg (bool_neg hban)]
    rw [hpl, if_pos (isPrefixOf_append_self ctxLabel (plower (x ++ ':' :: y)))]
    rw [show afterFirstColon ("Context:".toList ++ (x ++ ':' :: y))
        = x ++ ':' :: y from rfl]

/-- Witness for C2's amended claim at the spec's example line:
`Correct Answer: A) extra:info` stores only `A) extra` (between the first
two colons), while the `Answer:` extractor keeps the full remainder. -/
theorem claim2_colon_splitting_witness :
    mcqLine ⟨none, none, none, none, none⟩
        (caLabel ++ (" A) extra".toList ++ ':' :: "info".toList))
      = ⟨none, none, none, none, some "A) extra".toList⟩ ∧
    qaFindAnswer [("Answer:".toList ++ (" A) extra".toList ++ ':' :: "info".toList))]
      = some "A) extra:info".toList := by
  have h := claim2_colon_splitting (" A) extra".toList) ("info".toList)
    (by decide) (by decide)
  exact ⟨(h.1 ⟨none, none, none, none, none⟩).trans (by decide),
    (h.2.1 []).trans (by decide)⟩

/-- **C2** (counterexample to the claim as stated).  In an otherwise
well-formed MCQ block the line `Correct Answer: A) extra: info` yields
`correct_answer = "A) extra"`, not the claimed `"A) extra: info"`:
`parse_mcqs` splits the line on *every* colon and takes piece 1. -/
theorem claim2_counterexample :
    parse_mcqs
        ("Question 1:\nWhat?\nA) x\nB) y\nC) z\nD) w\nCorrect Answer: A) extra: info".toList)
      = [⟨"What?".toList, "x".toList, "y".toList, "z".toList, "w".toList,
          "A) extra".toList⟩] ∧
    "A) extra".toList ≠ "A) extra: info".toList := by
  constructor
  · decide
  · decide

/-- **C1**.  A completion made of well-formed MCQ blocks (marker, non-empty
question line, four `A)`–`D)` option lines, `Correct Answer: <letter>`
line) interleaved in any order with malformed blocks parses to exactly the
records of the well-formed blocks, in their original order, each record's
question, options and correct answer matching its source block
(`blockRecord` is `some` of the block's fields for well-formed blocks and
`none` for malformed ones). -/
theorem claim1_parse_mcqs_blocks (blocks : List MCQBlock)
    (h : ∀ blk ∈ blocks, blockWF blk) :
    parse_mcqs (renderBlocks blocks) = blocks.filterMap blockRecord :=
  parse_mcqs_renderBlocks blocks h

/-- Witness for C1: two well-formed blocks interleaved with one malformed
block whose body has only two lines; the result is exactly the two good
records, the second question taken verbatim from the second good block. -/
theorem claim1_witness :
    parse_mcqs (renderBlocks
      [MCQBlock.good "1".toList "What is two plus two?".toList "3".toList "4".toList
         "5".toList "6".toList "B".toList,
       MCQBlock.bad "2".toList "\nA short block\nwith only two lines".toList,
       MCQBlock.good "3".toList "Capital of France?".toList "Paris".toList
         "Rome".toList "Berlin".toList "Madrid".toList "A".toList])
      = [⟨"What is two plus two?".toList, "3".toList, "4".toList, "5".toList,
          "6".toList, "B".toList⟩,
         ⟨"Capital of France?".toList, "Paris".toList, "Rome".toList,
          "Berlin".toList, "Madrid".toList, "A".toList⟩] :=
  (claim1_parse_mcqs_blocks _ (by decide)).trans (by decide)

/-- **C3**.  First part: a segment contributes a record only if the
question is non-empty, the correct answer is non-empty, and the option
loop found all four options `A`–`D` (the loop state holds exactly the
record's four options and answer).  Second part: a block with only three
of the four options contributes no record at all, while surrounding
well-formed blocks still parse. -/
theorem claim3_mcq_inclusion :
    (∀ seg r, parseMCQSegment seg = some r →
      r.question ≠ [] ∧ r.correct_answer ≠ [] ∧
      mcqSegState seg = ⟨some r.optA, some r.optB, some r.optC, some r.optD,
        some r.correct_answer⟩) ∧
    (∀ ds1 ds2 ds3 q1 a1 b1 c1 d1 ans1 qt a3 b3 c3 ans3 q2 a2 b2 c2 d2 ans2 : List Char,
      ds1 ≠ [] → (∀ ch ∈ ds1, ch.isDigit = true) →
      ds2 ≠ [] → (∀ ch ∈ ds2, ch.isDigit = true) →
      ds3 ≠ [] → (∀ ch ∈ ds3, ch.isDigit = true) →
      plainStr q1 → q1 ≠ [] → plainStr a1 → plainStr b1 → plainStr c1 →
      plainStr d1 → plainStr ans1 → ans1 ≠ [] → ':' ∉ ans1 →
      plainStr qt → qt ≠ [] → plainStr a3 → plainStr b3 → plainStr c3 →
      plainStr ans3 → ans3 ≠ [] → ':' ∉ ans3 →
      plainStr q2 → q2 ≠ [] → plainStr a2 → plainStr b2 → plainStr c2 →
      plainStr d2 → plainStr ans2 → ans2 ≠ [] → ':' ∉ ans2 →
      parse_mcqs (renderBlocks
        [MCQBlock.good ds1 q1 a1 b1 c1 d1 ans1,
         MCQBlock.bad ds2 (threeOptBody qt a3 b3 c3 ans3),
         MCQBlock.good ds3 q2 a2 b2 c2 d2 ans2])
        = [⟨q1, a1, b1, c1, d1, ans1⟩, ⟨q2, a2, b2, c2, d2, ans2⟩]) := by
  constructor
  · intro seg r h
    have hrw : parseMCQSegment seg
        = (if (splitOnChar '\n' (pstrip seg)).length < 5 then none
           else match (mcqSegState seg).optA, (mcqSegState seg).optB,
               (mcqSegState seg).optC, (mcqSegState seg).optD,
               (mcqSegState seg).correct with
             | some a, some b, some c, some d, some ans =>
               if pstrip ((splitOnChar '\n' (pstrip seg)).headD []) ≠ [] ∧ ans ≠ [] then
                 some ⟨pstrip ((splitOnChar '\n' (pstrip seg)).headD []), a, b, c, d, ans⟩
               else none
             | _, _, _, _, _ => none) := rfl
    rw [hrw] at h
    by_cases hlen : (splitOnChar '\n' (pstrip seg)).length < 5
    · rw [if_pos hlen] at h
      cases h
    · rw [if_neg hlen] at h
      rcases hst : mcqSegState seg with ⟨oa, ob, oc, od, oco⟩
      rw [hst] at h
      cases oa with
      | none => dsimp only at h; cases h
      | some a =>
        cases ob with
        | none => dsimp only at h; cases h
        | some b =>
          cases oc with
          | none => dsimp only at h; cases h
          | some c =>
            cases od with
            | none => dsimp only at h; cases h
            | some d =>
              cases oco with
              | none => dsimp only at h; cases h
              | some ans =>
                dsimp only at h
                by_cases hP : pstrip ((splitOnChar '\n' (pstrip seg)).headD []) ≠ []
                    ∧ ans ≠ []
                · rw [if_pos hP] at h
                  have hr2 : r = ⟨pstrip ((splitOnChar '\n' (pstrip seg)).headD []),
                      a, b, c, d, ans⟩ := by
                    injection h with h1
                    exact h1.symm
                  subst hr2
                  exact ⟨hP.1, hP.2, rfl⟩
                · rw [if_neg hP] at h
                  cases h
  · intro ds1 ds2 ds3 q1 a1 b1 c1 d1 ans1 qt a3 b3 c3 ans3 q2 a2 b2 c2 d2 ans2
    intro hds1 hdig1 hds2 hdig2 hds3 hdig3
    intro hq1 hq1n ha1 hb1 hc1 hd1 hans1 hans1n hanc1
    intro hqt hqtn ha3 hb3 hc3 hans3 hans3n hanc3
    intro hq2 hq2n ha2 hb2 hc2 hd2 hans2 hans2n hanc2
    have hsf3 : splitFirst (threeOptBody qt a3 b3 c3 ans3) = none := by
      rw [threeOptBody]
      apply splitFirst_nlJoin
      intro l hl
      rcases List.mem_cons.mp hl with rfl | hl
      · exact hqt.2.2
      rcases List.mem_cons.mp hl with rfl | hl
      · exact splitFirst_optLine (by decide) ha3.2.2
      rcases List.mem_cons.mp hl with rfl | hl
      · exact splitFirst_optLine (by decide) hb3.2.2
      rcases List.mem_cons.mp hl with rfl | hl
      · exact splitFirst_optLine (by decide) hc3.2.2
      rcases List.mem_cons.mp hl with rfl | hl
      · exact splitFirst_caLine hans3.2.2
      · simp at hl
    have hwf : ∀ blk ∈ [MCQBlock.good ds1 q1 a1 b1 c1 d1 ans1,
        MCQBlock.bad ds2 (threeOptBody qt a3 b3 c3 ans3),
        MCQBlock.good ds3 q2 a2 b2 c2 d2 ans2], blockWF blk := by
      intro blk hblk
      rcases List.mem_cons.mp hblk with rfl | hblk
      · exact ⟨hds1, hdig1, hq1, hq1n, ha1, hb1, hc1, hd1, hans1, hans1n, hanc1⟩
      rcases List.mem_cons.mp hblk with rfl | hblk
      · refine ⟨hds2, hdig2, hsf3, ?_⟩
        exact parseMCQSegment_threeOpt hqt.1 hqtn hqt.2.1 ha3.1 ha3.2.1
          hb3.1 hb3.2.1 hc3.1 hc3.2.1 hans3.1 hans3n hans3.2.1 hanc3
      rcases List.mem_cons.mp hblk with rfl | hblk
      · exact ⟨hds3, hdig3, hq2, hq2n, ha2, hb2, hc2, hd2, hans2, hans2n, hanc2⟩
      · simp at hblk
    rw [parse_mcqs_renderBlocks _ hwf]
    rfl

/-- Witness for C3: concrete segment for the inclusion conditions, and a
concrete three-option block between two well-formed blocks. -/
theorem claim3_witness :
    parse_mcqs (renderBlocks
      [MCQBlock.good "1".toList "First?".toList "u".toList "v".toList "w".toList
         "x".toList "C".toList,
       MCQBlock.bad "2".toList
         (threeOptBody "Missing D?".toList "p".toList "q".toList "r".toList
           "A".toList),
       MCQBlock.good "3".toList "Third?".toList "e".toList "f".toList "g".toList
         "h".toList "D".toList])
      = [⟨"First?".toList, "u".toList, "v".toList, "w".toList, "x".toList,
          "C".toList⟩,
         ⟨"Third?".toList, "e".toList, "f".toList, "g".toList, "h".toList,
          "D".toList⟩] := by
  have h := claim3_mcq_inclusion.2 "1".toList "2".toList "3".toList
    "First?".toList "u".toList "v".toList "w".toList "x".toList "C".toList
    "Missing D?".toList "p".toList "q".toList "r".toList "A".toList
    "Third?".toList "e".toList "f".toList "g".toList "h".toList "D".toList
    (by decide) (by decide) (by decide) (by decide) (by decide) (by decide)
    (by decide) (by decide) (by decide) (by decide) (by decide) (by decide)
    (by decide) (by decide) (by decide) (by decide) (by decide) (by decide)
    (by decide) (by decide) (by decide) (by decide) (by decide) (by decide)
    (by decide) (by decide) (by decide) (by decide) (by decide) (by decide)
    (by decide) (by decide)
  exact h

/-- **C4**.  `parse_mcqs` of the empty string, and of any string in which
the pattern `Question <digits>:` never occurs, is the empty list: the
split yields a single segment (the preamble), which is discarded. -/
theorem claim4_no_marker (text : List Char) (h : splitFirst text = none) :
    parse_mcqs text = [] := by
  rw [parse_mcqs, reSplitQ_of_none h]
  rfl

/-- Witness for C4 at the two inputs named by the spec. -/
theorem claim4_witness :
    parse_mcqs [] = [] ∧ parse_mcqs ("no markers here".toList) = [] :=
  ⟨claim4_no_marker [] rfl, claim4_no_marker _ (by decide)⟩

/-- **C5**.  A fill-in-the-blank segment whose question and
`Blank Answer:` value are non-empty is included even when no `Context:`
line is present, with `context` absent (`none`); a segment whose
`Blank Answer:` line has an empty value, or that has a `Context:` line but
no `Blank Answer:` line at all, contributes no record. -/
theorem claim5_fib_context_optional (ds q a c : List Char)
    (hds : ds ≠ []) (hdig : ∀ ch ∈ ds, ch.isDigit = true)
    (hq : plainStr q) (hqne : q ≠ [])
    (ha : plainStr a) (hane : a ≠ [])
    (hc : plainStr c) (hcne : c ≠ []) :
    parse_fill_in_the_blanks (renderOne ds (twoLineBody q (baLine a)))
        = [⟨q, a, none⟩] ∧
    parse_fill_in_the_blanks (renderOne ds (twoLineBody q "Blank Answer:".toList))
        = [] ∧
    parse_fill_in_the_blanks (renderOne ds (twoLineBody q (ctxLine c))) = [] := by
  refine ⟨?_, ?_, ?_⟩
  · have hsf : splitFirst (twoLineBody q (baLine a)) = none := by
      rw [twoLineBody]
      apply splitFirst_nlJoin
      intro l hl
      rcases List.mem_cons.mp hl with rfl | hl
      · exact hq.2.2
      rcases List.mem_cons.mp hl with rfl | hl
      · show splitFirst ("Blank Answer: ".toList ++ a) = none
        exact splitFirst_append_nonQ (by decide) ha.2.2
      · simp at hl
    rw [parse_fib_one hds hdig hsf,
      parseFIBSegment_ba hq.1 hqne hq.2.1 ha.1 hane ha.2.1]
    rfl
  · have hsf : splitFirst (twoLineBody q "Blank Answer:".toList) = none := by
      rw [twoLineBody]
      apply splitFirst_nlJoin
      intro l hl
      rcases List.mem_cons.mp hl with rfl | hl
      · exact hq.2.2
      rcases List.mem_cons.mp hl with rfl | hl
      · decide
      · simp at hl
    rw [parse_fib_one hds hdig hsf, parseFIBSegment_ba_empty hq.1 hqne hq.2.1]
    rfl
  · have hsf : splitFirst (twoLineBody q (ctxLine c)) = none := by
      rw [twoLineBody]
      apply splitFirst_nlJoin
      intro l hl
      rcases List.mem_cons.mp hl with rfl | hl
      · exact hq.2.2
      rcases List.mem_cons.mp hl with rfl | hl
      · show splitFirst ("Context: ".toList ++ c) = none
        exact splitFirst_append_nonQ (by decide) hc.2.2
      · simp at hl
    rw [parse_fib_one hds hdig hsf,
      parseFIBSegment_ctx_only hq.1 hqne hq.2.1 hc.1 hcne hc.2.1]
    rfl

/-- Witness for C5 at concrete strings. -/
theorem claim5_witness :
    parse_fill_in_the_blanks
        (renderOne "1".toList (twoLineBody "The ___ is blue.".toList
          (baLine "sky".toList)))
      = [⟨"The ___ is blue.".toList, "sky".toList, none⟩] ∧
    parse_fill_in_the_blanks
        (renderOne "1".toList (twoLineBody "The ___ is blue.".toList
          "Blank Answer:".toList)) = [] ∧
    parse_fill_in_the_blanks
        (renderOne "1".toList (twoLineBody "The ___ is blue.".toList
          (ctxLine "colors".toList))) = [] :=
  claim5_fib_context_optional "1".toList "The ___ is blue.".toList "sky".toList
    "colors".toList (by decide) (by decide) (by decide) (by decide) (by decide)
    (by decide) (by decide) (by decide)

/-- **C6**.  `validate_file` succeeds exactly when the dot-prefixed,
lower-cased text after the last `.` of the filename (the whole filename
when it has no dot — `specFileExt`, modelled from the spec's wording) is in
the allow-list; `validate_file "report.PDF" [".docx", ".pdf"]` succeeds
and `validate_file "report" [".docx"]` raises a 400 error. -/
theorem claim6_validate_file :
    (∀ f al, validate_file f al = Except.ok () ↔ specFileExt f ∈ al) ∧
    validate_file "report.PDF".toList [".docx".toList, ".pdf".toList]
      = Except.ok () ∧
    validate_file "report".toList [".docx".toList] = Except.error 400 := by
  refine ⟨?_, by rfl, by rfl⟩
  intro f al
  rw [validate_file]
  have hext : fileExtOf f = specFileExt f := by
    rw [fileExtOf, specFileExt, splitOnChar_getLastD]
  rw [hext]
  constructor
  · intro h
    by_contra hmem
    rw [if_neg hmem] at h
    cases h
  · intro hmem
    rw [if_pos hmem]

/-- **C7**.  `validate_num_questions n lo hi` succeeds exactly when
`lo ≤ n ≤ hi` (inclusive bounds) and raises a 400 error otherwise; in
particular 0 and 11 fail against bounds 1..10 while 1 and 10 succeed. -/
theorem claim7_validate_num_questions :
    (∀ n lo hi : Int, validate_num_questions n lo hi = Except.ok ()
      ↔ lo ≤ n ∧ n ≤ hi) ∧
    validate_num_questions 0 1 10 = Except.error 400 ∧
    validate_num_questions 11 1 10 = Except.error 400 ∧
    validate_num_questions 1 1 10 = Except.ok () ∧
    validate_num_questions 10 1 10 = Except.ok () := by
  refine ⟨?_, by rfl, by rfl, by rfl, by rfl⟩
  intro n lo hi
  rw [validate_num_questions]
  by_cases h : n < lo ∨ n > hi
  · rw [if_pos h]
    constructor
    · intro h2
      cases h2
    · rintro ⟨h1, h2⟩
      exfalso
      omega
  · rw [if_neg h]
    push_neg at h
    constructor
    · intro _
      omega
    · intro _
      rfl

/-- **C8**.  `truncate_for_llm` is a pure left-prefix of length
`min max_length (length text)` with no ellipsis appended, whereas the
display-preview helper `get_document_preview` appends `"..."` whenever the
text is longer than the preview length. -/
theorem claim8_truncation (text : List Char) (n plen : Nat) :
    truncate_for_llm text (some n) <+: text ∧
    (truncate_for_llm text (some n)).length = min n text.length ∧
    (plen < text.length →
      get_document_preview text plen = text.take plen ++ ['.', '.', '.']) := by
  refine ⟨?_, ?_, ?_⟩
  · rw [truncate_for_llm]
    exact List.take_prefix n text
  · rw [truncate_for_llm]
    simp [List.length_take]
  · intro h
    rw [get_document_preview, if_pos h]

/-- Witness for C8 at the spec's concrete instance: a 3000-character exact
prefix of 5000 `x`s with no ellipsis, and the preview with ellipsis. -/
theorem claim8_witness :
    truncate_for_llm (List.replicate 5000 'x') (some 3000)
      = List.replicate 3000 'x' ∧
    (truncate_for_llm (List.replicate 5000 'x') (some 3000)).length
      = min 3000 (List.replicate 5000 'x').length ∧
    get_document_preview (List.replicate 5000 'x') 1000
      = (List.replicate 5000 'x').take 1000 ++ ['.', '.', '.'] := by
  refine ⟨?_, (claim8_truncation (List.replicate 5000 'x') 3000 1000).2.1,
    (claim8_truncation (List.replicate 5000 'x') 3000 1000).2.2
      (by rw [List.length_replicate]; norm_num)⟩
  rw [truncate_for_llm]
  show List.take 3000 (List.replicate 5000 'x') = List.replicate 3000 'x'
  rw [List.take_replicate]
  norm_num

/-- **C9**.  All three parsers are total on arbitrary input: the
exception-modelling variants (in which Python's `split(':')[1]` and
`split(':', 1)[1]` indexing is fallible) always return `Except.ok` of the
plain parsers' value and never an error, because every indexed colon-split
is guarded by a `startswith` check for a label that contains a colon. -/
theorem claim9_parsers_total (text : List Char) :
    parse_mcqsE text = Except.ok (parse_mcqs text) ∧
    parse_questionsE text = Except.ok (parse_questions text) ∧
    parse_fill_in_the_blanksE text = Except.ok (parse_fill_in_the_blanks text) :=
  ⟨parse_mcqsE_eq text, parse_questionsE_eq text, parse_fill_in_the_blanksE_eq text⟩

/-- **C10**.  `parse_mcqs` matches its labels case-sensitively: a block
whose answer line is `correct answer: ...` (or whose first option line is
`a) ...`) yields no record; `parse_questions` and
`parse_fill_in_the_blanks` lower-case before matching, so lower-case
`answer:`, `blank answer:` and `context:` labels still produce records. -/
theorem claim10_case_sensitivity (ds q a b c d ans ctx : List Char)
    (hds : ds ≠ []) (hdig : ∀ ch ∈ ds, ch.isDigit = true)
    (hq : plainStr q) (hqne : q ≠ [])
    (ha : plainStr a) (hane : a ≠ [])
    (hb : plainStr b) (hc : plainStr c) (hd : plainStr d)
    (hans : plainStr ans) (hansne : ans ≠ []) (hanc : ':' ∉ ans)
    (hctx : plainStr ctx) (hctxne : ctx ≠ []) :
    parse_mcqs (renderOne ds (mcqBodyLCAns q a b c d ans)) = [] ∧
    parse_mcqs (renderOne ds (mcqBodyLCOpt q a b c d ans)) = [] ∧
    parse_questions (renderOne ds (twoLineBody q (qaAnsLine a))) = [⟨q, a⟩] ∧
    parse_fill_in_the_blanks
        (renderOne ds (threeLineBody q (lcBaLine a) (lcCtxLine ctx)))
      = [⟨q, a, some ctx⟩] := by
  refine ⟨?_, ?_, ?_, ?_⟩
  · have hsf : splitFirst (mcqBodyLCAns q a b c d ans) = none := by
      rw [mcqBodyLCAns]
      apply splitFirst_nlJoin
      intro l hl
      rcases List.mem_cons.mp hl with rfl | hl
      · exact hq.2.2
      rcases List.mem_cons.mp hl with rfl | hl
      · exact splitFirst_optLine (by decide) ha.2.2
      rcases List.mem_cons.mp hl with rfl | hl
      · exact splitFirst_optLine (by decide) hb.2.2
      rcases List.mem_cons.mp hl with rfl | hl
      · exact splitFirst_optLine (by decide) hc.2.2
      rcases List.mem_cons.mp hl with rfl | hl
      · exact splitFirst_optLine (by decide) hd.2.2
      rcases List.mem_cons.mp hl with rfl | hl
      · show splitFirst ("correct answer: ".toList ++ ans) = none
        exact splitFirst_append_nonQ (by decide) hans.2.2
      · simp at hl
    rw [parse_mcqs_one hds hdig hsf,
      parseMCQSegment_lcans hq.1 hqne hq.2.1 ha.1 ha.2.1 hb.1 hb.2.1 hc.1 hc.2.1
        hd.1 hd.2.1 hans.1 hansne hans.2.1]
    rfl
  · have hsf : splitFirst (mcqBodyLCOpt q a b c d ans) = none := by
      rw [mcqBodyLCOpt]
      apply splitFirst_nlJoin
      intro l hl
      rcases List.mem_cons.mp hl with rfl | hl
      · exact hq.2.2
      rcases List.mem_cons.mp hl with rfl | hl
      · exact splitFirst_optLine (by decide) ha.2.2
      rcases List.mem_cons.mp hl with rfl | hl
      · exact splitFirst_optLine (by decide) hb.2.2
      rcases List.mem_cons.mp hl with rfl | hl
      · exact splitFirst_optLine (by decide) hc.2.2
      rcases List.mem_cons.mp hl with rfl | hl
      · exact splitFirst_optLine (by decide) hd.2.2
      rcases List.mem_cons.mp hl with rfl | hl
      · exact splitFirst_caLine hans.2.2
      · simp at hl
    rw [parse_mcqs_one hds hdig hsf,
      parseMCQSegment_lcopt hq.1 hqne hq.2.1 ha.1 ha.2.1 hb.1 hb.2.1 hc.1 hc.2.1
        hd.1 hd.2.1 hans.1 hansne hans.2.1 hanc]
    rfl
  · have hsf : splitFirst (twoLineBody q (qaAnsLine a)) = none := by
      rw [twoLineBody]
      apply splitFirst_nlJoin
      intro l hl
      rcases List.mem_cons.mp hl with rfl | hl
      · exact hq.2.2
      rcases List.mem_cons.mp hl with rfl | hl
      · show splitFirst ("answer: ".toList ++ a) = none
        exact splitFirst_append_nonQ (by decide) ha.2.2
      · simp at hl
    rw [parse_questions_one hds hdig hsf,
      parseQASegment_std hq.1 hqne hq.2.1 ha.1 hane ha.2.1]
    rfl
  · have hsf : splitFirst (threeLineBody q (lcBaLine a) (lcCtxLine ctx)) = none := by
      rw [threeLineBody]
      apply splitFirst_nlJoin
      intro l hl
      rcases List.mem_cons.mp hl with rfl | hl
      · exact hq.2.2
      rcases List.mem_cons.mp hl with rfl | hl
      · show splitFirst ("blank answer: ".toList ++ a) = none
        exact splitFirst_append_nonQ (by decide) ha.2.2
      rcases List.mem_cons.mp hl with rfl | hl
      · show splitFirst ("context: ".toList ++ ctx) = none
        exact splitFirst_append_nonQ (by decide) hctx.2.2
      · simp at hl
    rw [parse_fib_one hds hdig hsf,
      parseFIBSegment_lc hq.1 hqne hq.2.1 ha.1 hane ha.2.1 hctx.1 hctxne hctx.2.1]
    rfl

/-- Witness for C10 at concrete strings. -/
theorem claim10_witness :
    parse_mcqs (renderOne "1".toList
        (mcqBodyLCAns "Pick one.".toList "u".toList "v".toList "w".toList
          "x".toList "A".toList)) = [] ∧
    parse_mcqs (renderOne "1".toList
        (mcqBodyLCOpt "Pick one.".toList "u".toList "v".toList "w".toList
          "x".toList "A".toList)) = [] ∧
    parse_questions (renderOne "1".toList
        (twoLineBody "Pick one.".toList (qaAnsLine "u".toList)))
      = [⟨"Pick one.".toList, "u".toList⟩] ∧
    parse_fill_in_the_blanks (renderOne "1".toList
        (threeLineBody "Pick one.".toList (lcBaLine "u".toList)
          (lcCtxLine "why".toList)))
      = [⟨"Pick one.".toList, "u".toList, some "why".toList⟩] :=
  claim10_case_sensitivity "1".toList "Pick one.".toList "u".toList "v".toList
    "w".toList "x".toList "A".toList "why".toList (by decide) (by decide)
    (by decide) (by decide) (by decide) (by decide) (by decide) (by decide)
    (by decide) (by decide) (by decide) (by decide) (by decide) (by decide)

end QG
